import Mathlib

/-!
# Token-transfer decoding and chunked bulk persistence

A shallow embedding of `datasync/chaindatafetcher/kas/repository_token_transfer.go`
followed by the properties established about it.

Conventions of the embedding.

* A byte is a `Fin 256`; a Go `[]byte` is the list of its elements together with the
  bytes of its backing array that lie between its length and its capacity, because a
  Go slice expression `b[lo:hi]` is checked against the capacity, not the length.
* `common.Hash` (`[32]byte`) and `common.Address` (`[20]byte`) carry their length.
* A run-time panic of the Go program is the `error` side of `Except Panic`.
* A possibly-nil Go slice of records is an `Option (List _)`, `none` being `nil`:
  the chunking loop tests `tokenTransfers != nil`, so the difference is observable.
* Fixed-width integers are mathematical integers reduced explicitly
  (`int64`, `uint64ToInt64`).
* The package constants `maxTxCountPerBlock`, `maxTxLogCountPerTx`, `maxPlaceholders`
  and `placeholdersPerKCTTransferItem` are declared in another file of the package;
  they are the fields of `Config` and every definition takes them as a parameter.
-/

namespace Kas

/-! ## Bytes, words, addresses -/

abbrev Byte := Fin 256

/-- Run-time panics the decoded Go code can raise. -/
inductive Panic where
  /-- The panic `slice bounds out of range [:hi] with capacity cap`. -/
  | sliceBoundsOutOfRange (hi cap : Nat)
  /-- The panic `slice bounds out of range [lo:hi]`. -/
  | sliceBoundsInverted (lo hi : Nat)
  /-- The panic `index out of range [i] with length len`. -/
  | indexOutOfRange (i len : Nat)
  deriving DecidableEq, Repr

/-- Go `[]byte`: `elems` are the bytes at positions `[0, len)`, `spare` the bytes of
the backing array at positions `[len, cap)`. -/
structure Bytes where
  elems : List Byte
  spare : List Byte := []
  deriving DecidableEq, Repr

/-- Go `len(b)`. -/
def Bytes.len (b : Bytes) : Nat := b.elems.length

/-- Go `cap(b)`. -/
def Bytes.cap (b : Bytes) : Nat := b.elems.length + b.spare.length

/-- Go `b[lo:hi]`, as the bytes of the resulting slice: the upper bound is checked
against the capacity, then the lower bound against the upper one. -/
def Bytes.slice (b : Bytes) (lo hi : Nat) : Except Panic (List Byte) :=
  if b.cap < hi then .error (.sliceBoundsOutOfRange hi b.cap)
  else if hi < lo then .error (.sliceBoundsInverted lo hi)
  else .ok (((b.elems ++ b.spare).drop lo).take (hi - lo))

def HashLength : Nat := 32

def AddressLength : Nat := 20

/-- Go `common.Hash`, a `[32]byte`. -/
structure Hash where
  bytes : List Byte
  size : bytes.length = HashLength
  deriving DecidableEq, Repr

/-- Go `common.Address`, a `[20]byte`. -/
structure Address where
  bytes : List Byte
  size : bytes.length = AddressLength
  deriving DecidableEq, Repr

/-- Copy of `b` into a zeroed array of `n` bytes, right-aligned; when `b` is longer
than `n` only its last `n` bytes are kept (the `SetBytes` of `common.Hash` and
`common.Address`). -/
def setBytes (n : Nat) (b : List Byte) : List Byte :=
  List.replicate (n - b.length) 0 ++ b.drop (b.length - n)

/-- Modelled from the spec: `common.BytesToHash` belongs to a package that is not among
the sources; the payload is "split into consecutive 32-byte words", so a 32-byte
chunk becomes the word with exactly those bytes (shorter input is left-padded with
zeros, longer input keeps its last 32 bytes). -/
def BytesToHash (b : List Byte) : Hash :=
  ⟨setBytes HashLength b, by
    simp only [setBytes, List.length_append, List.length_replicate, List.length_drop]; omega⟩

/-- Modelled from the spec: `common.BytesToAddress` belongs to a package that is not
among the sources; a 20-byte input becomes the address with exactly those bytes
(shorter input is left-padded with zeros, longer input keeps its last 20 bytes). -/
def BytesToAddress (b : List Byte) : Address :=
  ⟨setBytes AddressLength b, by
    simp only [setBytes, List.length_append, List.length_replicate, List.length_drop]; omega⟩

/-- Go `h.Bytes()` for a hash. -/
def Hash.Bytes (h : Hash) : List Byte := h.bytes

/-- Go `a.Bytes()` for an address. -/
def Address.Bytes (a : Address) : List Byte := a.bytes

/-- The bytes of `0xddf252ad1be2c89b69c2b068fc378daa952ba7f163c4a11628f55a4df523b3ef`. -/
def tokenTransferEventHashBytes : List Byte :=
  [0xdd, 0xf2, 0x52, 0xad, 0x1b, 0xe2, 0xc8, 0x9b,
   0x69, 0xc2, 0xb0, 0x68, 0xfc, 0x37, 0x8d, 0xaa,
   0x95, 0x2b, 0xa7, 0xf1, 0x63, 0xc4, 0xa1, 0x16,
   0x28, 0xf5, 0x5a, 0x4d, 0xf5, 0x23, 0xb3, 0xef]

/-- The package variable `tokenTransferEventHash`. -/
def tokenTransferEventHash : Hash := ⟨tokenTransferEventHashBytes, rfl⟩

/-- The body of the loop of `splitToWords`, run `n` more times from offset `i`:
`words = append(words, common.BytesToHash(data[i:i+common.HashLength]))`. -/
def splitToWordsLoop (data : Bytes) : Nat → Nat → List Hash → Except Panic (List Hash)
  | 0, _, words => .ok words
  | n + 1, i, words =>
    match data.slice i (i + HashLength) with
    | .error p => .error p
    | .ok chunk => splitToWordsLoop data n (i + HashLength) (words ++ [BytesToHash chunk])

/-- Go `splitToWords`. The loop `for i := 0; i < len(data); i += common.HashLength`
runs once for each multiple of 32 below `len(data)`, that is
`(len(data) + 31) / 32` times, unless a slice expression panics. -/
def splitToWords (data : Bytes) : Except Panic (List Hash) :=
  splitToWordsLoop data ((data.len + (HashLength - 1)) / HashLength) 0 []

/-- Go `wordToAddress`: `common.BytesToAddress(word[common.HashLength-common.AddressLength:])`. -/
def wordToAddress (word : Hash) : Address :=
  BytesToAddress (word.bytes.drop (HashLength - AddressLength))

/-! ## Integers -/

/-- Reduction of a mathematical integer to the `int64` with the same low 64 bits. -/
def int64 (z : Int) : Int := (z + 2 ^ 63) % 2 ^ 64 - 2 ^ 63

/-- Go conversion `int64(x)` of a `uint64` (or 64-bit `uint`) value. -/
def uint64ToInt64 (x : Nat) : Int := int64 ((x % 2 ^ 64 : Nat) : Int)

/-- Go `(*big.Int).Int64`: the low 64 bits of the magnitude as an `int64`, negated
for a negative number. -/
def bigIntInt64 (x : Int) : Int :=
  if x < 0 then int64 (-(int64 ((x.natAbs % 2 ^ 64 : Nat) : Int)))
  else int64 ((x.natAbs % 2 ^ 64 : Nat) : Int)

/-- Go `new(big.Int).SetBytes(b)`: `b` read as a big-endian unsigned integer. -/
def bigIntSetBytes (b : List Byte) : Nat :=
  b.foldl (fun acc x => acc * 256 + x.val) 0

/-- The character Go's `math/big` uses for the digit `d` (`"0123456789abcdef..."`). -/
def hexDigit (d : Nat) : Char :=
  ['0', '1', '2', '3', '4', '5', '6', '7', '8', '9', 'a', 'b', 'c', 'd', 'e', 'f'].getD d '?'

/-- Digit extraction of `math/big` for a power-of-two base: the low digit of `n` is
written in front of `acc` and `n` is shifted right by four bits, until nothing is
left. The first argument bounds the number of shifts. -/
def hexDigitsAux : Nat → Nat → List Char → List Char
  | 0, _, acc => acc
  | fuel + 1, n, acc =>
    if n = 0 then acc else hexDigitsAux fuel (n / 16) (hexDigit (n % 16) :: acc)

/-- Go `x.Text(16)` for a non-negative `x`: lowercase digits, most significant first,
no leading zeros, `"0"` for zero. A positive `n` has at most `n` digits. -/
def bigIntText16 (n : Nat) : String :=
  if n = 0 then "0" else String.mk (hexDigitsAux n n [])

/-! ## Logs, events, transfer records -/

/-- The package constants used by this file. -/
structure Config where
  maxTxCountPerBlock : Int
  maxTxLogCountPerTx : Int
  maxPlaceholders : Nat
  placeholdersPerKCTTransferItem : Nat
  deriving DecidableEq, Repr

/-- The fields of Go `types.Log` read by this file. `BlockNumber` is a `uint64`,
`TxIndex` and `Index` are `uint`. -/
structure Log where
  Address : Address
  Topics : List Hash
  Data : Bytes
  BlockNumber : Nat
  TxHash : Hash
  TxIndex : Nat
  Index : Nat
  deriving DecidableEq, Repr

/-- The part of Go `types.Block` read by this file: `Time()` is a `*big.Int`. -/
structure Block where
  Time : Int
  deriving DecidableEq, Repr

/-- Go `blockchain.ChainEvent`, restricted to the fields read by this file. -/
structure ChainEvent where
  Block : Block
  Logs : List Log
  deriving DecidableEq, Repr

/-- Go `KCTTransfer`, with the fields this file reads and writes. -/
structure KCTTransfer where
  ContractAddress : List Byte
  From : List Byte
  To : List Byte
  TransactionLogId : Int
  Value : String
  TransactionHash : List Byte
  Timestamp : Int
  deriving DecidableEq, Repr

/-- Go index expression `xs[i]` on a slice. -/
def index {α : Type} (xs : List α) (i : Nat) : Except Panic α :=
  match xs[i]? with
  | some x => .ok x
  | none => .error (.indexOutOfRange i xs.length)

/-- The slice `data := append(log.Topics, splitToWords(log.Data)...)` of
`transformLogToTokenTransfer`. -/
def logWords (log : Log) : Except Panic (List Hash) :=
  match splitToWords log.Data with
  | .error p => .error p
  | .ok words => .ok (log.Topics ++ words)

/-- The expression computed for `txLogId`, every operation in `int64`. -/
def txLogId (cfg : Config) (log : Log) : Int :=
  int64 (int64 (int64 (int64 (uint64ToInt64 log.BlockNumber * cfg.maxTxCountPerBlock)
      * cfg.maxTxLogCountPerTx)
    + int64 (uint64ToInt64 log.TxIndex * cfg.maxTxLogCountPerTx))
    + uint64ToInt64 log.Index)

/-- Go `transformLogToTokenTransfer`. `Timestamp` is left at its zero value. -/
def transformLogToTokenTransfer (cfg : Config) (log : Log) : Except Panic KCTTransfer :=
  match logWords log with
  | .error p => .error p
  | .ok data =>
    match index data 1 with
    | .error p => .error p
    | .ok w1 =>
      let from_ := wordToAddress w1
      match index data 2 with
      | .error p => .error p
      | .ok w2 =>
        let to_ := wordToAddress w2
        match index data 3 with
        | .error p => .error p
        | .ok w3 =>
          let value := bigIntSetBytes w3.Bytes
          .ok { ContractAddress := log.Address.Bytes
                From := from_.Bytes
                To := to_.Bytes
                TransactionLogId := txLogId cfg log
                Value := "0x" ++ bigIntText16 value
                TransactionHash := log.TxHash.Bytes
                Timestamp := 0 }

/-- The test `len(log.Topics) > 0 && log.Topics[0] == tokenTransferEventHash`. -/
def isTokenTransfer (log : Log) : Bool :=
  decide (log.Topics.length > 0) && decide (log.Topics[0]? = some tokenTransferEventHash)

/-- Go `append(s, x)` on a possibly-nil slice: the result is never nil. -/
def appendTransfer (s : Option (List KCTTransfer)) (x : KCTTransfer) :
    Option (List KCTTransfer) :=
  some (s.getD [] ++ [x])

/-- The `range` loop of `transformsLogsToTokenTransfers` over the remaining logs, with
`kctTransfers` as accumulated so far. -/
def transformsLogsLoop (cfg : Config) (timestamp : Int) :
    List Log → Option (List KCTTransfer) → Except Panic (Option (List KCTTransfer))
  | [], kctTransfers => .ok kctTransfers
  | log :: rest, kctTransfers =>
    if isTokenTransfer log then
      match transformLogToTokenTransfer cfg log with
      | .error p => .error p
      | .ok transfer =>
        transformsLogsLoop cfg timestamp rest
          (appendTransfer kctTransfers { transfer with Timestamp := timestamp })
    else transformsLogsLoop cfg timestamp rest kctTransfers

/-- Go `transformsLogsToTokenTransfers`; `none` is the nil slice returned when no log
matched. -/
def transformsLogsToTokenTransfers (cfg : Config) (event : ChainEvent) :
    Except Panic (Option (List KCTTransfer)) :=
  transformsLogsLoop cfg (bigIntInt64 event.Block.Time) event.Logs none

/-! ## The store, the logger and the bulk writer -/

/-- An argument bound to a placeholder: the `interface{}` values this file passes
to `Exec` are `int64`, `[]byte` and `string`. -/
inductive SqlArg where
  | int64 (v : Int)
  | bytes (b : List Byte)
  | string (s : String)
  deriving DecidableEq, Repr

/-- A non-nil Go `error` returned by the database. -/
structure DbError where
  msg : String
  deriving DecidableEq, Repr

/-- One call `r.db.DB().Exec(query, valueArgs...)`. -/
structure ExecCall where
  query : String
  args : List SqlArg
  deriving DecidableEq, Repr

/-- The database behind `r.db.DB()`, an external collaborator: any function from its
state and a statement to an optional error (`none` is the nil error) and a new state. -/
structure Database (σ : Type) where
  Exec : σ → String → List SqlArg → Option DbError × σ

/-- One record written through the package logger. -/
inductive LogLine where
  /-- Go `logger.Debug(msg)`. -/
  | debug (msg : String)
  /-- Go `logger.Error(msg, "err", err, "numTokenTransfers", n)`. -/
  | error (msg : String) (err : DbError) (numTokenTransfers : Nat)
  deriving DecidableEq, Repr

/-- Everything the writer acts on: the database state and, as traces in the order of
occurrence, the statements executed, the arguments of the calls of
`bulkInsertTokenTransfers`, and the logger's records. -/
structure World (σ : Type) where
  db : σ
  executed : List ExecCall := []
  submitted : List (List KCTTransfer) := []
  logged : List LogLine := []

/-- The elements of a possibly-nil Go slice. -/
def elems {α : Type} (s : Option (List α)) : List α := s.getD []

/-- Go `strings.Join(elems, sep)`. -/
def stringsJoin : List String → String → String
  | [], _ => ""
  | [a], _ => a
  | a :: b :: rest, sep => a ++ sep ++ stringsJoin (b :: rest) sep

/-- The `range` loop of `bulkInsertTokenTransfers` over the remaining records, with
`valueStrings` and `valueArgs` as accumulated so far. -/
def bulkRows : List KCTTransfer → List String → List SqlArg → List String × List SqlArg
  | [], valueStrings, valueArgs => (valueStrings, valueArgs)
  | transfer :: rest, valueStrings, valueArgs =>
    bulkRows rest (valueStrings ++ ["(?,?,?,?,?,?,?)"])
      (valueArgs ++ [SqlArg.int64 transfer.TransactionLogId] ++ [SqlArg.bytes transfer.From]
        ++ [SqlArg.bytes transfer.To] ++ [SqlArg.string transfer.Value]
        ++ [SqlArg.bytes transfer.ContractAddress] ++ [SqlArg.bytes transfer.TransactionHash]
        ++ [SqlArg.int64 transfer.Timestamp])

/-- The text of `rawQuery` before its `%s`. -/
def rawQueryHead : String :=
  "\n\t\t\tINSERT INTO kct_transfers(transactionLogId, fromAddr, toAddr, value, contractAddress, transactionHash, timestamp)\n\t\t\tVALUES "

/-- The text of `rawQuery` after its `%s`. -/
def rawQueryTail : String :=
  "\n\t\t\tON DUPLICATE KEY\n\t\t\tUPDATE transactionLogId=transactionLogId"

/-- Go `fmt.Sprintf(rawQuery, values)`. -/
def sprintfRawQuery (values : String) : String := rawQueryHead ++ values ++ rawQueryTail

/-- The statement and arguments `bulkInsertTokenTransfers` builds for a chunk. -/
def bulkStatement (tokenTransfers : List KCTTransfer) : ExecCall :=
  let rows := bulkRows tokenTransfers [] []
  { query := sprintfRawQuery (stringsJoin rows.1 ","), args := rows.2 }

/-- Go `(*repository).bulkInsertTokenTransfers`. -/
def bulkInsertTokenTransfers {σ : Type} (d : Database σ)
    (tokenTransfers : Option (List KCTTransfer)) (w : World σ) : Option DbError × World σ :=
  let w := { w with submitted := w.submitted ++ [elems tokenTransfers] }
  if (elems tokenTransfers).length = 0 then
    (none, { w with logged := w.logged ++ [LogLine.debug "the token transfer list is empty"] })
  else
    let call := bulkStatement (elems tokenTransfers)
    match d.Exec w.db call.query call.args with
    | (some err, db) => (some err, { w with db := db, executed := w.executed ++ [call] })
    | (none, db) => (none, { w with db := db, executed := w.executed ++ [call] })

/-- How a run of `InsertTokenTransfers` ends. -/
inductive Outcome where
  /-- The function panicked. -/
  | panicked (p : Panic)
  /-- The function returned `err` (`none` is the nil error). -/
  | returned (err : Option DbError)
  /-- The chunking loop was still running when the iteration budget was used up. -/
  | running
  deriving DecidableEq, Repr

/-- The constant `chunkUnit := maxPlaceholders / placeholdersPerKCTTransferItem`. -/
def chunkUnit (cfg : Config) : Nat := cfg.maxPlaceholders / cfg.placeholdersPerKCTTransferItem

/-- The loop `for tokenTransfers != nil` of `InsertTokenTransfers`, run for at most
`fuel` iterations. In the first branch `chunkUnit` is below `len(tokenTransfers)`
(see `chunkUnit_lt_of_exceeds`), so the two slice expressions cannot panic; the
product `placeholdersPerKCTTransferItem*len(tokenTransfers)` is taken in the integers,
the length of a slice of pointers and the constants being far below the `int` range. -/
def insertLoop {σ : Type} (cfg : Config) (d : Database σ) :
    Nat → Option (List KCTTransfer) → World σ → Outcome × World σ
  | _, none, w => (.returned none, w)
  | 0, some _, w => (.running, w)
  | fuel + 1, some tokenTransfers, w =>
    let split : Option (List KCTTransfer) × Option (List KCTTransfer) :=
      if cfg.placeholdersPerKCTTransferItem * tokenTransfers.length > cfg.maxPlaceholders then
        (some (tokenTransfers.take (chunkUnit cfg)), some (tokenTransfers.drop (chunkUnit cfg)))
      else (some tokenTransfers, none)
    let chunks := split.1
    match bulkInsertTokenTransfers d chunks w with
    | (some err, w) =>
      (.returned (some err),
        { w with logged := w.logged ++
            [LogLine.error "failed to insertTokenTransfers" err (elems chunks).length] })
    | (none, w) => insertLoop cfg d fuel split.2 w

/-- Go `(*repository).InsertTokenTransfers`, its loop run for at most `fuel`
iterations. -/
def InsertTokenTransfers {σ : Type} (cfg : Config) (d : Database σ) (fuel : Nat)
    (event : ChainEvent) (w : World σ) : Outcome × World σ :=
  match transformsLogsToTokenTransfers cfg event with
  | .error p => (.panicked p, w)
  | .ok tokenTransfers => insertLoop cfg d fuel tokenTransfers w

/-! ## Definitions used to state the properties -/

/-- The 32-byte words of a payload, by position: word `k` holds bytes `32k .. 32k+31`. -/
def payloadWords (data : Bytes) : List Hash :=
  (List.range (data.len / HashLength)).map fun k =>
    BytesToHash ((data.elems.drop (HashLength * k)).take HashLength)

/-- A log "whose topic list is non-empty and whose first topic equals the fixed
transfer-event signature hash". -/
def matchesSignature (log : Log) : Prop :=
  log.Topics ≠ [] ∧ log.Topics.head? = some tokenTransferEventHash

instance matchesSignatureDecidable : DecidablePred matchesSignature :=
  fun _ => inferInstanceAs (Decidable (_ ∧ _))

/-- The 32-byte word whose last byte is `b` and whose other bytes are zero. -/
def smallWord (b : Byte) : Hash := ⟨List.replicate 31 0 ++ [b], by simp [HashLength]⟩

/-- Sample values of the package constants. -/
def sampleConfig : Config :=
  { maxTxCountPerBlock := 1000000, maxTxLogCountPerTx := 100000,
    maxPlaceholders := 70000, placeholdersPerKCTTransferItem := 7 }

/-- A transfer log in the encoding with `from`, `to` and `value` in the payload:
from = …01, to = …02, value = 100. -/
def sampleLogA : Log :=
  { Address := ⟨List.replicate 20 7, rfl⟩
    Topics := [tokenTransferEventHash]
    Data := { elems := (smallWord 1).bytes ++ (smallWord 2).bytes ++ (smallWord 100).bytes }
    BlockNumber := 5
    TxHash := ⟨List.replicate 32 9, rfl⟩
    TxIndex := 2
    Index := 3 }

/-- A log of another event: one topic that is not the transfer signature, no payload. -/
def sampleOtherLog : Log :=
  { sampleLogA with Topics := [smallWord 1], Data := { elems := [] } }

/-- The same transfer as `sampleLogA` in the encoding with `from` and `to` as topics. -/
def sampleLogB : Log :=
  { sampleLogA with
    Topics := [tokenTransferEventHash, smallWord 1, smallWord 2]
    Data := { elems := (smallWord 100).bytes } }

/-- The record both sample logs decode to, before the block time is attached. -/
def sampleRecord : KCTTransfer :=
  { ContractAddress := List.replicate 20 7
    From := List.replicate 19 0 ++ [1]
    To := List.replicate 19 0 ++ [2]
    TransactionLogId := 500000200003
    Value := "0x64"
    TransactionHash := List.replicate 32 9
    Timestamp := 0 }

/-- The 20-byte address whose last byte is `b` and whose other bytes are zero. -/
def smallAddress (b : Byte) : Address :=
  ⟨List.replicate 19 0 ++ [b], by simp [AddressLength]⟩

/-- The position `(block_number, transaction_index, log_index)` of a log. -/
def position (log : Log) : Nat × Nat × Nat := (log.BlockNumber, log.TxIndex, log.Index)

/-- Strict lexicographic order on position triples. -/
def lexLt (a b : Nat × Nat × Nat) : Prop :=
  a.1 < b.1 ∨ (a.1 = b.1 ∧ (a.2.1 < b.2.1 ∨ (a.2.1 = b.2.1 ∧ a.2.2 < b.2.2)))

instance lexLtDecidable (a b : Nat × Nat × Nat) : Decidable (lexLt a b) :=
  inferInstanceAs (Decidable (_ ∨ _))

/-- The log at a given position; the other fields are those of `sampleLogA`. -/
def logAt (block tx idx : Nat) : Log :=
  { sampleLogA with BlockNumber := block, TxIndex := tx, Index := idx }

/-- The big-endian unsigned integer of a byte string: the last byte is the least
significant digit in base 256. -/
def bigEndianValue (bs : List Byte) : Nat :=
  Nat.ofDigits 256 (bs.reverse.map fun b => b.val)

/-- The characters `0-9a-f`. -/
def lowerHexChars : List Char :=
  ['0', '1', '2', '3', '4', '5', '6', '7', '8', '9', 'a', 'b', 'c', 'd', 'e', 'f']

/-- The value of a base-16 digit character, upper or lower case. -/
def hexValue (c : Char) : Option Nat :=
  if '0' ≤ c ∧ c ≤ '9' then some (c.toNat - '0'.toNat)
  else if 'a' ≤ c ∧ c ≤ 'f' then some (c.toNat - 'a'.toNat + 10)
  else if 'A' ≤ c ∧ c ≤ 'F' then some (c.toNat - 'A'.toNat + 10)
  else none

/-- Reading a digit string as a base-16 integer, most significant digit first. -/
def parseHex : List Char → Option Nat
  | [] => none
  | c :: cs =>
    (c :: cs).foldl (fun acc ch => acc.bind fun a => (hexValue ch).map fun v => a * 16 + v)
      (some 0)

/-- The consecutive chunks of at most `c` elements of a list, by position: there are
`ceil(length / c)` of them and chunk `i` holds elements `c*i .. c*i + c - 1`. -/
def chunksOf {α : Type} (c : Nat) (xs : List α) : List (List α) :=
  (List.range ((xs.length + c - 1) / c)).map fun i => (xs.drop (c * i)).take c

/-- The replies of the database to a sequence of statements executed one after the
other from state `s`, and the state it ends in. -/
def runStore {σ : Type} (d : Database σ) : σ → List ExecCall → List (Option DbError) × σ
  | s, [] => ([], s)
  | s, call :: rest =>
    let r := d.Exec s call.query call.args
    let t := runStore d r.2 rest
    (r.1 :: t.1, t.2)

/-- The seven arguments `bulkInsertTokenTransfers` binds for one record, in order. -/
def rowArgs (transfer : KCTTransfer) : List SqlArg :=
  [SqlArg.int64 transfer.TransactionLogId, SqlArg.bytes transfer.From,
   SqlArg.bytes transfer.To, SqlArg.string transfer.Value,
   SqlArg.bytes transfer.ContractAddress, SqlArg.bytes transfer.TransactionHash,
   SqlArg.int64 transfer.Timestamp]

/-- The number of `?` placeholders in a statement text. -/
def placeholderCount (query : String) : Nat := query.data.count '?'

/-- A database that accepts every statement and counts them. -/
def acceptingDb : Database Nat := ⟨fun n _ _ => (none, n + 1)⟩

/-- A database that rejects the `k`-th statement it is given and accepts the others. -/
def failingDb (k : Nat) : Database Nat :=
  ⟨fun n _ _ => (if n + 1 = k then some ⟨"rejected"⟩ else none, n + 1)⟩

/-- A transfer record with the given id. -/
def recordWithId (id : Int) : KCTTransfer := { sampleRecord with TransactionLogId := id }

/-- Constants under which a statement holds at most two rows. -/
def tinyConfig : Config :=
  { maxTxCountPerBlock := 1000000, maxTxLogCountPerTx := 100000,
    maxPlaceholders := 15, placeholdersPerKCTTransferItem := 7 }

/-- The world before anything has happened, with database state `s`. -/
def freshWorld {σ : Type} (s : σ) : World σ := { db := s }

/-- Five transfer records with ids 0 to 4. -/
def fiveRecords : List KCTTransfer :=
  [recordWithId 0, recordWithId 1, recordWithId 2, recordWithId 3, recordWithId 4]

/-- A log with `from` as a topic and `to`, `value` in the payload. -/
def sampleLogMixed : Log :=
  { sampleLogA with
    Topics := [tokenTransferEventHash, smallWord 1]
    Data := { elems := (smallWord 2).bytes ++ (smallWord 100).bytes } }

/-- A log with `from`, `to` and `value` all as topics and an empty payload. -/
def sampleLogAllTopics : Log :=
  { sampleLogA with
    Topics := [tokenTransferEventHash, smallWord 1, smallWord 2, smallWord 100]
    Data := { elems := [] } }

/-- A matching log with too little data: the signature and one payload word. -/
def sampleLogShort : Log :=
  { sampleLogA with
    Topics := [tokenTransferEventHash]
    Data := { elems := (smallWord 1).bytes } }

/-- Go `append(a, b...)` on possibly-nil slices: appending nothing gives `a` back (nil
stays nil), anything else gives a non-nil slice. -/
def appendSlices {α : Type} (a b : Option (List α)) : Option (List α) :=
  match elems b with
  | [] => a
  | x :: xs => some (elems a ++ x :: xs)

/-- An event with five transfer logs, at log indices 0 to 4 of one transaction. -/
def sampleEventFive : ChainEvent :=
  ⟨⟨1000⟩, [logAt 5 2 0, logAt 5 2 1, logAt 5 2 2, logAt 5 2 3, logAt 5 2 4]⟩

/-- A row of the table `kct_transfers`, keyed by `transactionLogId`. -/
structure Row where
  transactionLogId : Int
  fromAddr : List Byte
  toAddr : List Byte
  value : String
  contractAddress : List Byte
  transactionHash : List Byte
  timestamp : Int
  deriving DecidableEq, Repr

/-- The row a transfer record is written as. -/
def rowOf (transfer : KCTTransfer) : Row :=
  { transactionLogId := transfer.TransactionLogId
    fromAddr := transfer.From
    toAddr := transfer.To
    value := transfer.Value
    contractAddress := transfer.ContractAddress
    transactionHash := transfer.TransactionHash
    timestamp := transfer.Timestamp }

/-- The rows bound by an argument list, seven arguments per row in the order of the
column list; `none` when the arguments do not have that shape. -/
def rowsOfArgs : List SqlArg → Option (List Row)
  | [] => some []
  | SqlArg.int64 id :: SqlArg.bytes f :: SqlArg.bytes t :: SqlArg.string v :: SqlArg.bytes c
      :: SqlArg.bytes h :: SqlArg.int64 ts :: rest =>
    (rowsOfArgs rest).map fun rows =>
      { transactionLogId := id, fromAddr := f, toAddr := t, value := v, contractAddress := c,
        transactionHash := h, timestamp := ts } :: rows
  | _ => none

/-- `INSERT … ON DUPLICATE KEY UPDATE transactionLogId=transactionLogId` for one row:
the row is inserted when its key is absent, and the existing row is left untouched
when the key is present. -/
def upsertRow (table : List Row) (row : Row) : List Row :=
  if table.any (fun r => decide (r.transactionLogId = row.transactionLogId)) then table
  else table ++ [row]

/-- The store as a map keyed by `transactionLogId`: its state is the list of rows, and
executing the statement upserts the bound rows one after the other. -/
def upsertStore : Database (List Row) :=
  ⟨fun table _ args =>
    match rowsOfArgs args with
    | some rows => (none, rows.foldl upsertRow table)
    | none => (some ⟨"malformed arguments"⟩, table)⟩

/-! # Properties -/

set_option maxRecDepth 8000

/-! ## The decoder: auxiliary facts -/

theorem setBytes_length (n : Nat) (b : List Byte) : (setBytes n b).length = n := by
  simp only [setBytes, List.length_append, List.length_replicate, List.length_drop]
  omega

theorem setBytes_of_length_eq {n : Nat} {b : List Byte} (h : b.length = n) :
    setBytes n b = b := by
  simp [setBytes, h]

theorem index_eq_ok {α : Type} {xs : List α} {i : Nat} {x : α} (h : xs[i]? = some x) :
    index xs i = .ok x := by
  simp [index, h]

theorem index_of_lt {α : Type} (xs : List α) (i : Nat) (h : i < xs.length) :
    ∃ x, xs[i]? = some x ∧ index xs i = .ok x := by
  refine ⟨xs[i], ?_, ?_⟩
  · simp [h]
  · simp [index, h]

theorem index_of_le {α : Type} (xs : List α) (i : Nat) (h : xs.length ≤ i) :
    index xs i = .error (.indexOutOfRange i xs.length) := by
  simp [index, List.getElem?_eq_none h]

theorem slice_ok (data : Bytes) (i : Nat) (h : i + HashLength ≤ data.cap) :
    data.slice i (i + HashLength) =
      .ok (((data.elems ++ data.spare).drop i).take HashLength) := by
  have h1 : ¬ data.cap < i + HashLength := by omega
  have h2 : ¬ i + HashLength < i := by omega
  simp [Bytes.slice, h1, h2]

theorem splitToWordsLoop_ok (data : Bytes) (n : Nat) :
    ∀ (i : Nat) (words : List Hash), i + HashLength * n ≤ data.cap →
      splitToWordsLoop data n i words =
        .ok (words ++ (List.range n).map fun k =>
          BytesToHash (((data.elems ++ data.spare).drop (i + HashLength * k)).take HashLength)) := by
  induction n with
  | zero => intro i words _; simp [splitToWordsLoop]
  | succ n ih =>
    intro i words h
    have hs : i + HashLength ≤ data.cap := by
      have : HashLength * (n + 1) = HashLength * n + HashLength := by ring
      omega
    have hr : i + HashLength + HashLength * n ≤ data.cap := by
      have : HashLength * (n + 1) = HashLength * n + HashLength := by ring
      omega
    rw [splitToWordsLoop, slice_ok data i hs]
    simp only
    rw [ih (i + HashLength) _ hr, List.range_succ_eq_map]
    simp only [List.map_cons, List.map_map, List.append_assoc, List.singleton_append,
      Nat.mul_zero, Nat.add_zero]
    congr 3
    apply List.map_congr_left
    intro k _
    simp only [Function.comp]
    have : i + HashLength + HashLength * k = i + HashLength * (k + 1) := by ring
    rw [this]

/-- On a payload whose length is a multiple of 32 `splitToWords` returns the words of
the payload, whatever lies behind the payload in its backing array. -/
theorem splitToWords_of_dvd (data : Bytes) (h : HashLength ∣ data.len) :
    splitToWords data = .ok (payloadWords data) := by
  obtain ⟨m, hm⟩ := h
  have hn : (data.len + (HashLength - 1)) / HashLength = m := by
    rw [hm]; simp only [HashLength]; omega
  have hd : data.len / HashLength = m := by
    rw [hm]; simp [HashLength]
  have hcap : 0 + HashLength * m ≤ data.cap := by
    simp only [Bytes.cap, Bytes.len] at *; omega
  rw [splitToWords, hn, splitToWordsLoop_ok data m 0 [] hcap, payloadWords, hd]
  simp only [List.nil_append, Nat.zero_add]
  congr 1
  apply List.map_congr_left
  intro k hk
  have hk' : k < m := List.mem_range.mp hk
  congr 1
  rw [List.drop_append_of_le_length, List.take_append_of_le_length]
  · simp only [List.length_drop]
    simp only [Bytes.len] at hm
    have : HashLength * (k + 1) ≤ HashLength * m := Nat.mul_le_mul_left _ hk'
    have e : HashLength * (k + 1) = HashLength * k + HashLength := by ring
    omega
  · simp only [Bytes.len] at hm
    have : HashLength * k ≤ HashLength * m := Nat.mul_le_mul_left _ (Nat.le_of_lt hk')
    omega

theorem payloadWords_length (data : Bytes) :
    (payloadWords data).length = data.len / HashLength := by
  simp [payloadWords]

theorem logWords_of_dvd (log : Log) (h : HashLength ∣ log.Data.len) :
    logWords log = .ok (log.Topics ++ payloadWords log.Data) := by
  simp [logWords, splitToWords_of_dvd log.Data h]

theorem hash_eq_of_bytes {a b : Hash} (h : a.bytes = b.bytes) : a = b := by
  cases a; cases b; cases h; rfl

theorem address_eq_of_bytes {a b : Address} (h : a.bytes = b.bytes) : a = b := by
  cases a; cases b; cases h; rfl

theorem BytesToHash_bytes {b : List Byte} (h : b.length = HashLength) :
    (BytesToHash b).bytes = b :=
  setBytes_of_length_eq h

theorem BytesToHash_of_hash (w : Hash) : BytesToHash w.bytes = w :=
  hash_eq_of_bytes (BytesToHash_bytes w.size)

theorem wordToAddress_bytes (w : Hash) :
    (wordToAddress w).bytes = w.bytes.drop 12 := by
  have h : (w.bytes.drop (HashLength - AddressLength)).length = AddressLength := by
    simp [List.length_drop, w.size, HashLength, AddressLength]
  show setBytes AddressLength _ = _
  rw [setBytes_of_length_eq h]
  rfl

theorem transformLog_of_words (cfg : Config) (log : Log) (d : List Hash) (w1 w2 w3 : Hash)
    (hd : logWords log = .ok d) (h1 : d[1]? = some w1) (h2 : d[2]? = some w2)
    (h3 : d[3]? = some w3) :
    transformLogToTokenTransfer cfg log = .ok
      { ContractAddress := log.Address.bytes
        From := w1.bytes.drop 12
        To := w2.bytes.drop 12
        TransactionLogId := txLogId cfg log
        Value := "0x" ++ bigIntText16 (bigIntSetBytes w3.bytes)
        TransactionHash := log.TxHash.bytes
        Timestamp := 0 } := by
  simp only [transformLogToTokenTransfer, hd, index_eq_ok h1, index_eq_ok h2, index_eq_ok h3,
    Address.Bytes, Hash.Bytes, wordToAddress_bytes]

theorem payloadWords_three (f t v : Hash) (spare : List Byte) :
    payloadWords ⟨f.bytes ++ t.bytes ++ v.bytes, spare⟩ = [f, t, v] := by
  have hf := f.size
  have ht := t.size
  have hv := v.size
  have hlen : (f.bytes ++ t.bytes ++ v.bytes).length / HashLength = 3 := by
    simp [hf, ht, hv, HashLength]
  simp only [payloadWords, Bytes.len, hlen]
  have e0 : ((f.bytes ++ t.bytes ++ v.bytes).drop (HashLength * 0)).take HashLength = f.bytes := by
    rw [Nat.mul_zero, List.drop_zero, List.append_assoc, List.take_left' hf]
  have e1 : ((f.bytes ++ t.bytes ++ v.bytes).drop (HashLength * 1)).take HashLength = t.bytes := by
    rw [Nat.mul_one, List.append_assoc, List.drop_left' hf, List.take_left' ht]
  have e2 : ((f.bytes ++ t.bytes ++ v.bytes).drop (HashLength * 2)).take HashLength = v.bytes := by
    have : (f.bytes ++ t.bytes).length = HashLength * 2 := by
      simp [hf, ht, HashLength]
    rw [List.drop_left' this, List.take_of_length_le (by omega)]
  rw [show List.range 3 = [0, 1, 2] from rfl]
  simp only [List.map_cons, List.map_nil, e0, e1, e2, BytesToHash_of_hash]

theorem payloadWords_one (v : Hash) (spare : List Byte) :
    payloadWords ⟨v.bytes, spare⟩ = [v] := by
  have hv := v.size
  have hlen : v.bytes.length / HashLength = 1 := by simp [hv, HashLength]
  simp only [payloadWords, Bytes.len, hlen]
  have e0 : (v.bytes.drop (HashLength * 0)).take HashLength = v.bytes := by
    rw [Nat.mul_zero, List.drop_zero, List.take_of_length_le (by omega)]
  rw [show List.range 1 = [0] from rfl]
  simp only [List.map_cons, List.map_nil, e0, BytesToHash_of_hash]

theorem isTokenTransfer_iff (log : Log) :
    isTokenTransfer log = true ↔ matchesSignature log := by
  unfold isTokenTransfer matchesSignature
  cases h : log.Topics with
  | nil => simp
  | cons t rest => simp

theorem transformLog_ok_of_length (cfg : Config) (log : Log) (d : List Hash)
    (hd : logWords log = .ok d) (h4 : 4 ≤ d.length) :
    ∃ r, transformLogToTokenTransfer cfg log = .ok r := by
  obtain ⟨w1, h1, _⟩ := index_of_lt d 1 (by omega)
  obtain ⟨w2, h2, _⟩ := index_of_lt d 2 (by omega)
  obtain ⟨w3, h3, _⟩ := index_of_lt d 3 (by omega)
  exact ⟨_, transformLog_of_words cfg log d w1 w2 w3 hd h1 h2 h3⟩

theorem transformsLogsLoop_spec (cfg : Config) (timestamp : Int) (logs : List Log) :
    ∀ acc : Option (List KCTTransfer),
      (∀ log ∈ logs, matchesSignature log → ∃ d, logWords log = .ok d ∧ 4 ≤ d.length) →
      ∃ new : List KCTTransfer,
        transformsLogsLoop cfg timestamp logs acc
            = .ok (if new = [] then acc else some (elems acc ++ new)) ∧
        List.Forall₂
          (fun log r => ∃ r0, transformLogToTokenTransfer cfg log = .ok r0 ∧
            r = { r0 with Timestamp := timestamp })
          (logs.filter fun log => decide (matchesSignature log)) new := by
  induction logs with
  | nil =>
    intro acc _
    exact ⟨[], by simp [transformsLogsLoop], by simp⟩
  | cons log rest ih =>
    intro acc hdec
    have hrest : ∀ l ∈ rest, matchesSignature l → ∃ d, logWords l = .ok d ∧ 4 ≤ d.length :=
      fun l hl => hdec l (List.mem_cons_of_mem _ hl)
    by_cases hm : matchesSignature log
    · obtain ⟨d, hd, h4⟩ := hdec log (List.mem_cons_self _ _) hm
      obtain ⟨r0, hr0⟩ := transformLog_ok_of_length cfg log d hd h4
      obtain ⟨new, hloop, hall⟩ :=
        ih (appendTransfer acc { r0 with Timestamp := timestamp }) hrest
      refine ⟨{ r0 with Timestamp := timestamp } :: new, ?_, ?_⟩
      · rw [transformsLogsLoop, if_pos ((isTokenTransfer_iff log).mpr hm), hr0]
        simp only
        rw [hloop]
        by_cases hn : new = []
        · simp [hn, appendTransfer, elems]
        · simp [hn, appendTransfer, elems]
      · rw [List.filter_cons_of_pos (by simpa using hm)]
        exact List.Forall₂.cons ⟨r0, hr0, rfl⟩ hall
    · obtain ⟨new, hloop, hall⟩ := ih acc hrest
      refine ⟨new, ?_, ?_⟩
      · have : ¬ isTokenTransfer log = true := fun h => hm ((isTokenTransfer_iff log).mp h)
        rw [transformsLogsLoop, if_neg this, hloop]
      · rw [List.filter_cons_of_neg (by simpa using hm)]
        exact hall

/-- C1. For every chain event whose matching logs are decodable (topics followed by
payload words are at least 4 elements), `transformsLogsToTokenTransfers` returns
without error, and its output corresponds one to one, in order, to the logs whose
topic list is non-empty and starts with the transfer signature: each such log gives
the record `transformLogToTokenTransfer` builds for it, stamped with the block time.
Other logs give nothing, so the output length is the number of matching logs. -/
theorem transformsLogs_one_record_per_matching_log (cfg : Config) (event : ChainEvent)
    (hdec : ∀ log ∈ event.Logs, matchesSignature log →
      ∃ d, logWords log = .ok d ∧ 4 ≤ d.length) :
    ∃ out, transformsLogsToTokenTransfers cfg event = .ok out ∧
      List.Forall₂
        (fun log r => ∃ r0, transformLogToTokenTransfer cfg log = .ok r0 ∧
          r = { r0 with Timestamp := bigIntInt64 event.Block.Time })
        (event.Logs.filter fun log => decide (matchesSignature log)) (elems out) ∧
      (elems out).length = event.Logs.countP fun log => decide (matchesSignature log) := by
  obtain ⟨new, hloop, hall⟩ :=
    transformsLogsLoop_spec cfg (bigIntInt64 event.Block.Time) event.Logs none hdec
  have he : elems (if new = [] then (none : Option (List KCTTransfer))
      else some (elems none ++ new)) = new := by
    by_cases hn : new = []
    · simp [hn, elems]
    · simp [hn, elems]
  refine ⟨_, hloop, ?_, ?_⟩
  · rw [he]; exact hall
  · rw [he, List.countP_eq_length_filter]
    exact hall.length_eq.symm

/-- Witness for C1: an event with a non-matching log, a transfer log and a log without
topics yields exactly one record. -/
theorem transformsLogs_one_record_per_matching_log_witness :
    ∃ out, transformsLogsToTokenTransfers sampleConfig
        ⟨⟨1000⟩, [sampleOtherLog, sampleLogA, { sampleOtherLog with Topics := [] }]⟩ = .ok out ∧
      (elems out).length = 1 := by
  obtain ⟨out, h, _, hlen⟩ := transformsLogs_one_record_per_matching_log sampleConfig
    ⟨⟨1000⟩, [sampleOtherLog, sampleLogA, { sampleOtherLog with Topics := [] }]⟩
    (by
      intro log hlog hm
      simp only [List.mem_cons, List.mem_singleton, List.not_mem_nil, or_false] at hlog
      rcases hlog with rfl | rfl | rfl
      · exact absurd hm (by decide)
      · exact ⟨[tokenTransferEventHash, smallWord 1, smallWord 2, smallWord 100], rfl,
          by decide⟩
      · exact absurd hm (by decide))
  exact ⟨out, h, by rw [hlen]; decide⟩

theorem int64_of_inRange (z : Int) (h1 : -2 ^ 63 ≤ z) (h2 : z < 2 ^ 63) : int64 z = z := by
  unfold int64
  omega

theorem bigIntInt64_of_inRange (x : Int) (h1 : -2 ^ 63 ≤ x) (h2 : x < 2 ^ 63) :
    bigIntInt64 x = x := by
  unfold bigIntInt64 int64
  split <;> omega

/-- C2. A matching log whose payload length is a multiple of 32 and whose topics
followed by payload words have elements 1, 2 and 3 (`w1`, `w2`, `w3`) decodes to the
record with the log's address, the last 20 bytes of `w1` and of `w2`, `"0x"` followed
by the base-16 text of the big-endian integer of `w3`, the log's transaction hash and
the block time as an `int64` (the block time itself when it is in the `int64` range);
the byte fields have 20, 20, 20 and 32 bytes. -/
theorem decoded_record_fields (cfg : Config) (log : Log) (time : Int) (w1 w2 w3 : Hash)
    (hm : matchesSignature log) (h32 : 32 ∣ log.Data.len)
    (h1 : (log.Topics ++ payloadWords log.Data)[1]? = some w1)
    (h2 : (log.Topics ++ payloadWords log.Data)[2]? = some w2)
    (h3 : (log.Topics ++ payloadWords log.Data)[3]? = some w3) :
    transformsLogsToTokenTransfers cfg ⟨⟨time⟩, [log]⟩ = .ok (some
      [{ ContractAddress := log.Address.bytes
         From := w1.bytes.drop 12
         To := w2.bytes.drop 12
         TransactionLogId := txLogId cfg log
         Value := "0x" ++ bigIntText16 (bigIntSetBytes w3.bytes)
         TransactionHash := log.TxHash.bytes
         Timestamp := bigIntInt64 time }]) ∧
      (-2 ^ 63 ≤ time ∧ time < 2 ^ 63 → bigIntInt64 time = time) ∧
      log.Address.bytes.length = 20 ∧ (w1.bytes.drop 12).length = 20 ∧
      (w2.bytes.drop 12).length = 20 ∧ log.TxHash.bytes.length = 32 := by
  have hd := logWords_of_dvd log h32
  have hr := transformLog_of_words cfg log _ w1 w2 w3 hd h1 h2 h3
  refine ⟨?_, fun h => bigIntInt64_of_inRange time h.1 h.2, log.Address.size, ?_, ?_,
    log.TxHash.size⟩
  · simp only [transformsLogsToTokenTransfers, transformsLogsLoop,
      if_pos ((isTokenTransfer_iff log).mpr hm), hr, appendTransfer]
    rfl
  · simp [List.length_drop, w1.size, HashLength]
  · simp [List.length_drop, w2.size, HashLength]

/-- Witness for C2: topics `[signature]`, payload words from = …01, to = …02,
value = 100, block time 1000 give value `"0x64"` and timestamp 1000. -/
theorem decoded_record_fields_witness :
    transformsLogsToTokenTransfers sampleConfig ⟨⟨1000⟩, [sampleLogA]⟩
      = .ok (some [{ sampleRecord with Value := "0x64", Timestamp := 1000 }]) := by
  have h := decoded_record_fields sampleConfig sampleLogA 1000
    (smallWord 1) (smallWord 2) (smallWord 100) (by decide) (by decide) rfl rfl rfl
  rw [h.1]
  rfl

/-- C3. The two encodings decode identically: for all 32-byte words `f`, `t`, `v`, a
log with topics `[signature]` and payload `f ++ t ++ v` and a log with topics
`[signature, f, t]` and payload `v`, equal in every other field, give the same record
(and the decoder gives the same output for the two one-log events). -/
theorem variants_decode_identically (cfg : Config) (base : Log) (f t v : Hash)
    (spareA spareB : List Byte) (time : Int) :
    (∃ r, transformLogToTokenTransfer cfg
        { base with Topics := [tokenTransferEventHash]
                    Data := ⟨f.bytes ++ t.bytes ++ v.bytes, spareA⟩ } = .ok r ∧
      transformLogToTokenTransfer cfg
        { base with Topics := [tokenTransferEventHash, f, t]
                    Data := ⟨v.bytes, spareB⟩ } = .ok r) ∧
    transformsLogsToTokenTransfers cfg ⟨⟨time⟩,
        [{ base with Topics := [tokenTransferEventHash]
                     Data := ⟨f.bytes ++ t.bytes ++ v.bytes, spareA⟩ }]⟩ =
      transformsLogsToTokenTransfers cfg ⟨⟨time⟩,
        [{ base with Topics := [tokenTransferEventHash, f, t]
                     Data := ⟨v.bytes, spareB⟩ }]⟩ := by
  have hA32 : HashLength ∣ (⟨f.bytes ++ t.bytes ++ v.bytes, spareA⟩ : Bytes).len :=
    ⟨3, by simp [Bytes.len, f.size, t.size, v.size, HashLength]⟩
  have hB32 : HashLength ∣ (⟨v.bytes, spareB⟩ : Bytes).len :=
    ⟨1, by simp [Bytes.len, v.size, HashLength]⟩
  have hA := transformLog_of_words cfg
    { base with Topics := [tokenTransferEventHash]
                Data := ⟨f.bytes ++ t.bytes ++ v.bytes, spareA⟩ }
    [tokenTransferEventHash, f, t, v] f t v
    (by rw [logWords_of_dvd _ hA32, payloadWords_three]; rfl) rfl rfl rfl
  have hB := transformLog_of_words cfg
    { base with Topics := [tokenTransferEventHash, f, t]
                Data := ⟨v.bytes, spareB⟩ }
    [tokenTransferEventHash, f, t, v] f t v
    (by rw [logWords_of_dvd _ hB32, payloadWords_one]; rfl) rfl rfl rfl
  refine ⟨⟨_, hA, hB⟩, ?_⟩
  simp only [transformsLogsToTokenTransfers, transformsLogsLoop, hA, hB]
  rfl

/-- C5. `wordToAddress` keeps the tail: its result is exactly the 20 bytes
`w[12..31]` of the word (byte `i` of the address is byte `12 + i` of the word), and a
word made of 12 zero bytes followed by a 20-byte address decodes to that address. -/
theorem wordToAddress_keeps_tail (w : Hash) (a : Address) :
    (wordToAddress w).bytes = w.bytes.drop 12 ∧
    (wordToAddress w).bytes.length = 20 ∧
    (∀ i, i < 20 → (wordToAddress w).bytes[i]? = w.bytes[12 + i]?) ∧
    (w.bytes = List.replicate 12 0 ++ a.bytes → wordToAddress w = a) := by
  have hb := wordToAddress_bytes w
  refine ⟨hb, (wordToAddress w).size, ?_, ?_⟩
  · intro i _
    rw [hb, List.getElem?_drop]
  · intro hw
    apply address_eq_of_bytes
    rw [hb, hw, List.drop_left' (by simp)]

/-- Witness for C5: the word `00…00 01` with its tail `00…00 01` as address. -/
theorem wordToAddress_keeps_tail_witness :
    wordToAddress (smallWord 1) = smallAddress 1 :=
  (wordToAddress_keeps_tail (smallWord 1) (smallAddress 1)).2.2.2 rfl

/-! ## The transaction log id -/

theorem uint64ToInt64_of_lt (x : Nat) (h : (x : Int) < 2 ^ 63) : uint64ToInt64 x = x := by
  unfold uint64ToInt64 int64
  omega

/-- Below the `int64` limit the id is the mathematical value of the formula. -/
theorem txLogId_exact (cfg : Config) (log : Log)
    (ht : (log.TxIndex : Int) < cfg.maxTxCountPerBlock)
    (hi : (log.Index : Int) < cfg.maxTxLogCountPerTx)
    (hb : ((log.BlockNumber : Int) + 1) * cfg.maxTxCountPerBlock * cfg.maxTxLogCountPerTx
      ≤ 2 ^ 63) :
    txLogId cfg log = (log.BlockNumber : Int) * cfg.maxTxCountPerBlock * cfg.maxTxLogCountPerTx
      + (log.TxIndex : Int) * cfg.maxTxLogCountPerTx + (log.Index : Int) := by
  obtain ⟨K1, K2, M, P⟩ := cfg
  obtain ⟨a, tp, dt, b, th, t, i⟩ := log
  simp only at ht hi hb ⊢
  have hb0 : (0 : Int) ≤ b := Int.ofNat_nonneg b
  have ht0 : (0 : Int) ≤ t := Int.ofNat_nonneg t
  have hi0 : (0 : Int) ≤ i := Int.ofNat_nonneg i
  have hK1 : 1 ≤ K1 := by omega
  have hK2 : 1 ≤ K2 := by omega
  have hX0 : 0 ≤ (b : Int) * K1 := Int.mul_nonneg hb0 (by omega)
  have hbX : (b : Int) ≤ b * K1 := by nlinarith
  have hXY : (b : Int) * K1 ≤ b * K1 * K2 := by nlinarith
  have hZ0 : 0 ≤ (t : Int) * K2 := Int.mul_nonneg ht0 (by omega)
  have hZW : (t : Int) * K2 + K2 ≤ K1 * K2 := by nlinarith
  have hYW : (b : Int) * K1 * K2 + K1 * K2 ≤ 2 ^ 63 := by nlinarith
  have hK2W : K2 ≤ K1 * K2 := by nlinarith
  have hK1W : K1 ≤ K1 * K2 := by nlinarith
  unfold txLogId
  simp only
  rw [uint64ToInt64_of_lt b (by omega), uint64ToInt64_of_lt t (by omega),
    uint64ToInt64_of_lt i (by omega)]
  rw [int64_of_inRange ((b : Int) * K1) (by omega) (by omega)]
  rw [int64_of_inRange ((b : Int) * K1 * K2) (by omega) (by omega)]
  rw [int64_of_inRange ((t : Int) * K2) (by omega) (by omega)]
  rw [int64_of_inRange ((b : Int) * K1 * K2 + (t : Int) * K2) (by omega) (by omega)]
  rw [int64_of_inRange ((b : Int) * K1 * K2 + (t : Int) * K2 + i) (by omega) (by omega)]

theorem int64_half_mul (k : Int) : int64 (-2 ^ 63 * k) = 0 ∨ int64 (-2 ^ 63 * k) = -2 ^ 63 := by
  unfold int64
  omega

/-- Counterexample to C4 as stated. With the sample constants the log at block
92233721 gets a negative id, below the id of the log at block 92233720; and for no
choice of positive constants at all is the id order-preserving on every pair of
valid positions, the ids of blocks `0` and `2^63` being in the wrong order. -/
theorem txLogId_overflow_breaks_order :
    (lexLt (position (logAt 92233720 0 0)) (position (logAt 92233721 0 0)) ∧
      txLogId sampleConfig (logAt 92233720 0 0) = 9223372000000000000 ∧
      txLogId sampleConfig (logAt 92233721 0 0) = -9223371973709551616) ∧
    ¬ ∃ cfg : Config, 0 < cfg.maxTxCountPerBlock ∧ 0 < cfg.maxTxLogCountPerTx ∧
      ∀ l1 l2 : Log,
        (l1.TxIndex : Int) < cfg.maxTxCountPerBlock → (l1.Index : Int) < cfg.maxTxLogCountPerTx →
        (l2.TxIndex : Int) < cfg.maxTxCountPerBlock → (l2.Index : Int) < cfg.maxTxLogCountPerTx →
        l1.BlockNumber < 2 ^ 64 → l2.BlockNumber < 2 ^ 64 →
        lexLt (position l1) (position l2) → txLogId cfg l1 < txLogId cfg l2 := by
  refine ⟨⟨by decide, by decide, by decide⟩, ?_⟩
  rintro ⟨cfg, h1, h2, h⟩
  have hlt := h (logAt 0 0 0) (logAt (2 ^ 63) 0 0) (by simpa [logAt] using h1)
    (by simpa [logAt] using h2) (by simpa [logAt] using h1) (by simpa [logAt] using h2)
    (by simp [logAt]) (by simp [logAt]) (by decide)
  have e0 : uint64ToInt64 0 = 0 := by decide
  have e1 : uint64ToInt64 (2 ^ 63) = -2 ^ 63 := by decide
  have z : int64 0 = 0 := by decide
  have m : int64 (-2 ^ 63) = -2 ^ 63 := by decide
  simp only [txLogId, logAt, e0, e1, zero_mul, z, add_zero] at hlt
  rcases int64_half_mul cfg.maxTxCountPerBlock with ha | ha
  · rw [ha] at hlt
    simp only [zero_mul, z] at hlt
    exact absurd hlt (by decide)
  · rw [ha] at hlt
    rcases int64_half_mul cfg.maxTxLogCountPerTx with hb | hb
    · rw [hb] at hlt
      simp only [z] at hlt
      exact absurd hlt (by decide)
    · rw [hb] at hlt
      simp only [m] at hlt
      exact absurd hlt (by decide)

/-- C4 (amended). When, besides the index bounds, both logs satisfy
`(block_number + 1) * maxTxCountPerBlock * maxTxLogCountPerTx ≤ 2^63`, the id computed
by `transformLogToTokenTransfer` is strictly increasing in the lexicographic order of
`(block_number, transaction_index, log_index)`, so distinct positions get distinct ids. -/
theorem txLogId_strictly_increasing (cfg : Config) (l1 l2 : Log)
    (ht1 : (l1.TxIndex : Int) < cfg.maxTxCountPerBlock)
    (hi1 : (l1.Index : Int) < cfg.maxTxLogCountPerTx)
    (ht2 : (l2.TxIndex : Int) < cfg.maxTxCountPerBlock)
    (hi2 : (l2.Index : Int) < cfg.maxTxLogCountPerTx)
    (hb1 : ((l1.BlockNumber : Int) + 1) * cfg.maxTxCountPerBlock * cfg.maxTxLogCountPerTx
      ≤ 2 ^ 63)
    (hb2 : ((l2.BlockNumber : Int) + 1) * cfg.maxTxCountPerBlock * cfg.maxTxLogCountPerTx
      ≤ 2 ^ 63) :
    (lexLt (position l1) (position l2) → txLogId cfg l1 < txLogId cfg l2) ∧
    (position l1 ≠ position l2 → txLogId cfg l1 ≠ txLogId cfg l2) := by
  have key : ∀ a b : Log,
      (a.TxIndex : Int) < cfg.maxTxCountPerBlock → (a.Index : Int) < cfg.maxTxLogCountPerTx →
      (b.TxIndex : Int) < cfg.maxTxCountPerBlock → (b.Index : Int) < cfg.maxTxLogCountPerTx →
      ((a.BlockNumber : Int) + 1) * cfg.maxTxCountPerBlock * cfg.maxTxLogCountPerTx ≤ 2 ^ 63 →
      ((b.BlockNumber : Int) + 1) * cfg.maxTxCountPerBlock * cfg.maxTxLogCountPerTx ≤ 2 ^ 63 →
      lexLt (position a) (position b) → txLogId cfg a < txLogId cfg b := by
    intro a b hta hia htb hib hba hbb hlex
    rw [txLogId_exact cfg a hta hia hba, txLogId_exact cfg b htb hib hbb]
    have hta0 : (0 : Int) ≤ a.TxIndex := Int.ofNat_nonneg _
    have hia0 : (0 : Int) ≤ a.Index := Int.ofNat_nonneg _
    have htb0 : (0 : Int) ≤ b.TxIndex := Int.ofNat_nonneg _
    have hib0 : (0 : Int) ≤ b.Index := Int.ofNat_nonneg _
    have hK1 : 1 ≤ cfg.maxTxCountPerBlock := by omega
    have hK2 : 1 ≤ cfg.maxTxLogCountPerTx := by omega
    have hW : 1 ≤ cfg.maxTxCountPerBlock * cfg.maxTxLogCountPerTx := by nlinarith
    have hZa : (a.TxIndex : Int) * cfg.maxTxLogCountPerTx + cfg.maxTxLogCountPerTx
        ≤ cfg.maxTxCountPerBlock * cfg.maxTxLogCountPerTx := by nlinarith
    have hZb0 : 0 ≤ (b.TxIndex : Int) * cfg.maxTxLogCountPerTx :=
      Int.mul_nonneg htb0 (by omega)
    simp only [lexLt, position] at hlex
    rcases hlex with hlt | ⟨heq, hlt | ⟨heq2, hlt⟩⟩
    · have h1 : (a.BlockNumber : Int) + 1 ≤ b.BlockNumber := by omega
      have h2 : ((a.BlockNumber : Int) + 1) * (cfg.maxTxCountPerBlock * cfg.maxTxLogCountPerTx)
          ≤ (b.BlockNumber : Int) * (cfg.maxTxCountPerBlock * cfg.maxTxLogCountPerTx) :=
        Int.mul_le_mul_of_nonneg_right h1 (by omega)
      nlinarith
    · have h1 : (a.TxIndex : Int) + 1 ≤ b.TxIndex := by omega
      have h2 : ((a.TxIndex : Int) + 1) * cfg.maxTxLogCountPerTx
          ≤ (b.TxIndex : Int) * cfg.maxTxLogCountPerTx :=
        Int.mul_le_mul_of_nonneg_right h1 (by omega)
      rw [heq]
      nlinarith
    · rw [heq, heq2]
      omega
  refine ⟨key l1 l2 ht1 hi1 ht2 hi2 hb1 hb2, ?_⟩
  intro hne
  have hcases : lexLt (position l1) (position l2) ∨ lexLt (position l2) (position l1) := by
    simp only [lexLt, position]
    have : ¬ (l1.BlockNumber = l2.BlockNumber ∧ l1.TxIndex = l2.TxIndex ∧ l1.Index = l2.Index) := by
      rintro ⟨e1, e2, e3⟩
      exact hne (by simp [position, e1, e2, e3])
    omega
  rcases hcases with h | h
  · exact ne_of_lt (key l1 l2 ht1 hi1 ht2 hi2 hb1 hb2 h)
  · exact ne_of_gt (key l2 l1 ht2 hi2 ht1 hi1 hb2 hb1 h)

/-- Witness for C4 (amended): blocks 92233718 and 92233719 with the sample constants. -/
theorem txLogId_strictly_increasing_witness :
    txLogId sampleConfig (logAt 92233718 999999 99999) < txLogId sampleConfig (logAt 92233719 0 0) :=
  (txLogId_strictly_increasing sampleConfig (logAt 92233718 999999 99999) (logAt 92233719 0 0)
    (by decide) (by decide) (by decide) (by decide) (by decide) (by decide)).1 (by decide)

/-! ## The value text -/

theorem bigIntSetBytes_foldl (bs : List Byte) (a : Nat) :
    bs.foldl (fun acc x => acc * 256 + x.val) a
      = a * 256 ^ bs.length + bigEndianValue bs := by
  induction bs generalizing a with
  | nil => simp [bigEndianValue]
  | cons b bs ih =>
    rw [List.foldl_cons, ih]
    simp only [bigEndianValue, List.reverse_cons, List.map_append, List.map_cons, List.map_nil,
      Nat.ofDigits_append, Nat.ofDigits_singleton, List.length_map, List.length_reverse,
      List.length_cons]
    ring

theorem bigIntSetBytes_eq (bs : List Byte) : bigIntSetBytes bs = bigEndianValue bs := by
  unfold bigIntSetBytes
  rw [bigIntSetBytes_foldl]
  simp

theorem bigEndianValue_lt (bs : List Byte) : bigEndianValue bs < 256 ^ bs.length := by
  have h := Nat.ofDigits_lt_base_pow_length (b := 256) (l := bs.reverse.map fun b => b.val)
    (by decide) (by
      intro x hx
      obtain ⟨b, _, rfl⟩ := List.mem_map.mp hx
      exact b.isLt)
  simpa [bigEndianValue] using h

theorem hexDigitsAux_eq (fuel : Nat) :
    ∀ (n : Nat) (acc : List Char), n ≤ fuel →
      hexDigitsAux fuel n acc = ((Nat.digits 16 n).reverse.map hexDigit) ++ acc := by
  induction fuel with
  | zero =>
    intro n acc h
    have : n = 0 := by omega
    subst this
    simp [hexDigitsAux]
  | succ fuel ih =>
    intro n acc h
    by_cases hn : n = 0
    · subst hn
      simp [hexDigitsAux]
    · have hpos : 0 < n := Nat.pos_of_ne_zero hn
      rw [hexDigitsAux, if_neg hn, ih (n / 16) _ (by omega),
        Nat.digits_def' (by decide : 1 < 16) hpos]
      simp

theorem bigIntText16_of_pos (n : Nat) (h : n ≠ 0) :
    bigIntText16 n = String.mk ((Nat.digits 16 n).reverse.map hexDigit) := by
  rw [bigIntText16, if_neg h, hexDigitsAux_eq n n [] (Nat.le_refl n)]
  simp

theorem hexDigit_mem (d : Nat) (h : d < 16) : hexDigit d ∈ lowerHexChars := by
  interval_cases d <;> decide

theorem hexValue_hexDigit (d : Nat) (h : d < 16) : hexValue (hexDigit d) = some d := by
  interval_cases d <;> decide

theorem hexDigit_eq_zero (d : Nat) (h : d < 16) (h0 : hexDigit d = '0') : d = 0 := by
  interval_cases d <;> first | rfl | exact absurd h0 (by decide)

theorem parseHex_foldl (ds : List Nat) (hall : ∀ d ∈ ds, d < 16) :
    (ds.reverse.map hexDigit).foldl
        (fun acc ch => acc.bind fun a => (hexValue ch).map fun v => a * 16 + v) (some 0)
      = some (Nat.ofDigits 16 ds) := by
  induction ds with
  | nil => simp
  | cons d ds ih =>
    have hd : d < 16 := hall d (List.mem_cons_self _ _)
    have hds : ∀ x ∈ ds, x < 16 := fun x hx => hall x (List.mem_cons_of_mem _ hx)
    rw [List.reverse_cons, List.map_append, List.foldl_append, ih hds]
    simp only [List.map_cons, List.map_nil, List.foldl_cons, List.foldl_nil, Option.some_bind,
      hexValue_hexDigit d hd, Option.map_some', Nat.ofDigits_cons]
    congr 1
    ring

/-- The text of a positive number: lowercase hex digits, the first one not `0`, which
read back as the number. -/
theorem bigIntText16_spec (n : Nat) :
    ∃ digits : List Char, bigIntText16 n = String.mk digits ∧ digits ≠ [] ∧
      (∀ c ∈ digits, c ∈ lowerHexChars) ∧
      (digits.head? = some '0' → n = 0) ∧
      (n = 0 → digits = ['0']) ∧
      parseHex digits = some n := by
  by_cases hn : n = 0
  · subst hn
    exact ⟨['0'], rfl, by simp, by decide, fun _ => rfl, fun _ => rfl, by decide⟩
  · have hall : ∀ d ∈ Nat.digits 16 n, d < 16 := fun d hd => Nat.digits_lt_base (by decide) hd
    have hne : Nat.digits 16 n ≠ [] := Nat.digits_ne_nil_iff_ne_zero.mpr hn
    have hne' : (Nat.digits 16 n).reverse.map hexDigit ≠ [] := by simpa using hne
    refine ⟨(Nat.digits 16 n).reverse.map hexDigit, bigIntText16_of_pos n hn, hne', ?_, ?_,
      fun h => absurd h hn, ?_⟩
    · intro c hc
      obtain ⟨d, hd, rfl⟩ := List.mem_map.mp hc
      exact hexDigit_mem d (hall d (List.mem_reverse.mp hd))
    · intro hhead
      exfalso
      have hlast := Nat.getLast_digit_ne_zero 16 hn
      rw [List.head?_map, List.head?_reverse] at hhead
      rw [List.getLast?_eq_getLast _ hne] at hhead
      simp only [Option.map_some', Option.some.injEq] at hhead
      exact hlast (hexDigit_eq_zero _ (hall _ (List.getLast_mem hne)) hhead)
    · obtain ⟨c, cs, hcs⟩ := List.exists_cons_of_ne_nil hne'
      rw [hcs, parseHex, ← hcs, parseHex_foldl _ hall, Nat.ofDigits_digits]

/-- C6. For the value word `w` (element 3 of topics followed by payload words) with
big-endian value `n < 2^256`, the record's `Value` is `"0x"` followed by a non-empty
digit string over `0-9a-f` only (no upper-case letter, no sign), whose first digit is
`0` only when `n = 0`, in which case `Value` is exactly `"0x0"`, and which read as a
base-16 integer gives back `n`. -/
theorem value_text_round_trips (cfg : Config) (log : Log) (d : List Hash) (w : Hash)
    (hd : logWords log = .ok d) (h3 : d[3]? = some w) :
    bigEndianValue w.bytes < 2 ^ 256 ∧
    ∃ r digits, transformLogToTokenTransfer cfg log = .ok r ∧
      r.Value = "0x" ++ String.mk digits ∧ digits ≠ [] ∧
      (∀ c ∈ digits, c ∈ lowerHexChars ∧ c.isUpper = false ∧ c ≠ '+' ∧ c ≠ '-') ∧
      (digits.head? = some '0' → bigEndianValue w.bytes = 0) ∧
      (bigEndianValue w.bytes = 0 → r.Value = "0x0") ∧
      parseHex digits = some (bigEndianValue w.bytes) := by
  have hlen : 3 < d.length := by
    by_contra hc
    rw [List.getElem?_eq_none (by omega)] at h3
    cases h3
  obtain ⟨w1, h1, _⟩ := index_of_lt d 1 (by omega)
  obtain ⟨w2, h2, _⟩ := index_of_lt d 2 (by omega)
  have hr := transformLog_of_words cfg log d w1 w2 w hd h1 h2 h3
  obtain ⟨digits, htext, hne, hchars, hhead, hzero, hparse⟩ :=
    bigIntText16_spec (bigEndianValue w.bytes)
  refine ⟨?_, _, digits, hr, ?_, hne, ?_, hhead, ?_, hparse⟩
  · have h := bigEndianValue_lt w.bytes
    rw [w.size] at h
    exact lt_of_lt_of_eq h (by simp [HashLength])
  · simp only [bigIntSetBytes_eq, htext]
  · intro c hc
    have hm := hchars c hc
    simp only [lowerHexChars, List.mem_cons, List.mem_singleton, List.not_mem_nil,
      or_false] at hm
    refine ⟨hchars c hc, ?_, ?_, ?_⟩ <;>
      rcases hm with h | h | h | h | h | h | h | h | h | h | h | h | h | h | h | h <;>
      subst h <;> decide
  · intro h0
    simp only [bigIntSetBytes_eq, htext, hzero h0]
    rfl

/-- Witness for C6: the value word `00…64` of the sample log. -/
theorem value_text_round_trips_witness :
    ∃ r digits, transformLogToTokenTransfer sampleConfig sampleLogA = .ok r ∧
      r.Value = "0x" ++ String.mk digits ∧
      parseHex digits = some (bigEndianValue (smallWord 100).bytes) := by
  obtain ⟨_, r, digits, hr, hv, _, _, _, _, hp⟩ :=
    value_text_round_trips sampleConfig sampleLogA
      [tokenTransferEventHash, smallWord 1, smallWord 2, smallWord 100] (smallWord 100) rfl rfl
  exact ⟨r, digits, hr, hv, hp⟩

/-! ## The bulk writer: auxiliary facts -/

theorem exceeds_iff (cfg : Config) (n : Nat) (hP : 0 < cfg.placeholdersPerKCTTransferItem) :
    cfg.placeholdersPerKCTTransferItem * n > cfg.maxPlaceholders ↔ chunkUnit cfg < n := by
  unfold chunkUnit
  rw [Nat.div_lt_iff_lt_mul hP, Nat.mul_comm]

/-- In the first branch of the loop the slice bound `chunkUnit` is below the length. -/
theorem chunkUnit_lt_of_exceeds (cfg : Config) (n : Nat)
    (h : cfg.placeholdersPerKCTTransferItem * n > cfg.maxPlaceholders) : chunkUnit cfg < n := by
  have hP : 0 < cfg.placeholdersPerKCTTransferItem := by
    rcases Nat.eq_zero_or_pos cfg.placeholdersPerKCTTransferItem with h0 | h0
    · rw [h0] at h; simp at h
    · exact h0
  exact (exceeds_iff cfg n hP).mp h

theorem pos_of_chunkUnit_pos (cfg : Config) (hc : 1 ≤ chunkUnit cfg) :
    0 < cfg.placeholdersPerKCTTransferItem := by
  rcases Nat.eq_zero_or_pos cfg.placeholdersPerKCTTransferItem with h0 | h0
  · simp [chunkUnit, h0] at hc
  · exact h0

theorem chunksOf_nil {α : Type} (c : Nat) (hc : 1 ≤ c) : chunksOf c ([] : List α) = [] := by
  have : (c - 1) / c = 0 := Nat.div_eq_of_lt (by omega)
  simp [chunksOf, this]

theorem chunksOf_short {α : Type} (c : Nat) (xs : List α) (hx : xs ≠ [])
    (h : xs.length ≤ c) : chunksOf c xs = [xs] := by
  have hpos : 0 < xs.length := List.length_pos.mpr hx
  have hn : (xs.length + c - 1) / c = 1 := by
    have e : xs.length + c - 1 = (xs.length - 1) + c := by omega
    rw [e, Nat.add_div_right _ (by omega : 0 < c), Nat.div_eq_of_lt (by omega)]
  rw [chunksOf, hn, show List.range 1 = [0] from rfl]
  simp only [List.map_cons, List.map_nil, Nat.mul_zero, List.drop_zero,
    List.take_of_length_le h]

theorem chunksOf_long {α : Type} (c : Nat) (xs : List α) (hc : 1 ≤ c) (h : c < xs.length) :
    chunksOf c xs = xs.take c :: chunksOf c (xs.drop c) := by
  have hn : (xs.length + c - 1) / c = ((xs.drop c).length + c - 1) / c + 1 := by
    have e : xs.length + c - 1 = ((xs.drop c).length + c - 1) + c := by
      simp only [List.length_drop]; omega
    rw [e, Nat.add_div_right _ (by omega : 0 < c)]
  rw [chunksOf, hn, List.range_succ_eq_map]
  simp only [List.map_cons, List.map_map, Nat.mul_zero, List.drop_zero]
  congr 1
  apply List.map_congr_left
  intro i _
  simp only [Function.comp, List.drop_drop]
  congr 2
  rw [Nat.mul_succ, Nat.add_comm]

theorem chunksOf_length {α : Type} (c : Nat) (xs : List α) :
    (chunksOf c xs).length = (xs.length + c - 1) / c := by
  simp [chunksOf]

theorem chunksOf_ne_nil {α : Type} (c : Nat) (xs : List α) (hc : 1 ≤ c) (hx : xs ≠ []) :
    chunksOf c xs ≠ [] := by
  rcases Nat.lt_or_ge c xs.length with h | h
  · rw [chunksOf_long c xs hc h]; simp
  · rw [chunksOf_short c xs hx h]; simp

/-- Every chunk is non-empty and has at most `c` elements, every chunk but the last
has exactly `c`, and the chunks concatenate to the list. -/
theorem chunksOf_spec {α : Type} (c : Nat) (hc : 1 ≤ c) :
    ∀ (n : Nat) (xs : List α), xs.length ≤ n →
      (chunksOf c xs).flatten = xs ∧
      (∀ ch ∈ chunksOf c xs, 1 ≤ ch.length ∧ ch.length ≤ c) ∧
      (∀ ch ∈ (chunksOf c xs).dropLast, ch.length = c) := by
  intro n
  induction n with
  | zero =>
    intro xs hx
    have : xs = [] := List.length_eq_zero.mp (by omega)
    subst this
    simp [chunksOf_nil c hc]
  | succ n ih =>
    intro xs hx
    by_cases hnil : xs = []
    · subst hnil
      simp [chunksOf_nil c hc]
    · rcases Nat.lt_or_ge c xs.length with h | h
      · have hdrop : (xs.drop c).length ≤ n := by
          simp only [List.length_drop]; omega
        obtain ⟨hj, hb, hl⟩ := ih (xs.drop c) hdrop
        have hne : chunksOf c (xs.drop c) ≠ [] :=
          chunksOf_ne_nil c _ hc (by
            intro h0
            have := congrArg List.length h0
            simp only [List.length_drop, List.length_nil] at this
            omega)
        have htake : (xs.take c).length = c := by
          simp only [List.length_take]; omega
        rw [chunksOf_long c xs hc h]
        refine ⟨?_, ?_, ?_⟩
        · rw [List.flatten_cons, hj, List.take_append_drop]
        · intro ch hch
          rcases List.mem_cons.mp hch with rfl | hch
          · omega
          · exact hb ch hch
        · intro ch hch
          rw [List.dropLast_cons_of_ne_nil hne] at hch
          rcases List.mem_cons.mp hch with rfl | hch
          · exact htake
          · exact hl ch hch
      · rw [chunksOf_short c xs hnil h]
        have hpos : 0 < xs.length := List.length_pos.mpr hnil
        refine ⟨by simp, ?_, by simp⟩
        intro ch hch
        rw [List.mem_singleton] at hch
        subst hch
        omega

theorem bulkInsert_nonempty {σ : Type} (d : Database σ) (ch : List KCTTransfer) (w : World σ)
    (h : ch ≠ []) :
    bulkInsertTokenTransfers d (some ch) w =
      ((d.Exec w.db (bulkStatement ch).query (bulkStatement ch).args).1,
        { db := (d.Exec w.db (bulkStatement ch).query (bulkStatement ch).args).2
          executed := w.executed ++ [bulkStatement ch]
          submitted := w.submitted ++ [ch]
          logged := w.logged }) := by
  have hlen : ¬ ch.length = 0 := fun h0 => h (List.length_eq_zero.mp h0)
  simp only [bulkInsertTokenTransfers, elems, Option.getD_some, if_neg hlen]
  rcases hE : d.Exec w.db (bulkStatement ch).query (bulkStatement ch).args with ⟨e, db⟩
  cases e <;> rfl

theorem bulkInsert_empty {σ : Type} (d : Database σ) (s : Option (List KCTTransfer))
    (w : World σ) (h : elems s = []) :
    bulkInsertTokenTransfers d s w =
      (none, { db := w.db
               executed := w.executed
               submitted := w.submitted ++ [[]]
               logged := w.logged ++ [LogLine.debug "the token transfer list is empty"] }) := by
  simp [bulkInsertTokenTransfers, h]

/-- One iteration of the loop on a list longer than `chunkUnit`. -/
theorem insertLoop_long {σ : Type} (cfg : Config) (d : Database σ) (fuel : Nat)
    (ts : List KCTTransfer) (w : World σ) (hc : 1 ≤ chunkUnit cfg)
    (h : chunkUnit cfg < ts.length) :
    insertLoop cfg d (fuel + 1) (some ts) w =
      match bulkInsertTokenTransfers d (some (ts.take (chunkUnit cfg))) w with
      | (some err, w1) =>
        (.returned (some err),
          { w1 with logged := w1.logged ++
              [LogLine.error "failed to insertTokenTransfers" err (ts.take (chunkUnit cfg)).length] })
      | (none, w1) => insertLoop cfg d fuel (some (ts.drop (chunkUnit cfg))) w1 := by
  have hP := pos_of_chunkUnit_pos cfg hc
  have hcond : cfg.placeholdersPerKCTTransferItem * ts.length > cfg.maxPlaceholders :=
    (exceeds_iff cfg ts.length hP).mpr h
  rw [insertLoop]
  simp only [if_pos hcond, elems, Option.getD_some]

/-- One iteration of the loop on a list of at most `chunkUnit` elements. -/
theorem insertLoop_short {σ : Type} (cfg : Config) (d : Database σ) (fuel : Nat)
    (ts : List KCTTransfer) (w : World σ) (hc : 1 ≤ chunkUnit cfg)
    (h : ts.length ≤ chunkUnit cfg) :
    insertLoop cfg d (fuel + 1) (some ts) w =
      match bulkInsertTokenTransfers d (some ts) w with
      | (some err, w1) =>
        (.returned (some err),
          { w1 with logged := w1.logged ++
              [LogLine.error "failed to insertTokenTransfers" err ts.length] })
      | (none, w1) => (.returned none, w1) := by
  have hP := pos_of_chunkUnit_pos cfg hc
  have hcond : ¬ cfg.placeholdersPerKCTTransferItem * ts.length > cfg.maxPlaceholders :=
    fun hgt => absurd ((exceeds_iff cfg ts.length hP).mp hgt) (by omega)
  rw [insertLoop]
  simp only [if_neg hcond, elems, Option.getD_some]
  rcases bulkInsertTokenTransfers d (some ts) w with ⟨e, w1⟩
  cases e
  · simp only [insertLoop]
  · rfl
/-- What a run of the loop over a non-empty list has done, whatever the database
answers: with `c = chunkUnit ≥ 1` it has submitted the first `k` chunks of the list, in
order, one statement each, and it is either still running (budget of `k` iterations
used up, no failure so far), or has returned nil after the last chunk, or has returned
the error the database gave for chunk `k`, the first one to fail. -/
theorem insertLoop_trace {σ : Type} (cfg : Config) (d : Database σ)
    (hc : 1 ≤ chunkUnit cfg) :
    ∀ (fuel : Nat) (ts : List KCTTransfer) (w : World σ), ts ≠ [] →
      ∃ k, k ≤ (chunksOf (chunkUnit cfg) ts).length ∧
        (insertLoop cfg d fuel (some ts) w).2.submitted
          = w.submitted ++ (chunksOf (chunkUnit cfg) ts).take k ∧
        (insertLoop cfg d fuel (some ts) w).2.executed
          = w.executed ++ ((chunksOf (chunkUnit cfg) ts).take k).map bulkStatement ∧
        (insertLoop cfg d fuel (some ts) w).2.db
          = (runStore d w.db (((chunksOf (chunkUnit cfg) ts).take k).map bulkStatement)).2 ∧
        (((insertLoop cfg d fuel (some ts) w).1 = .running ∧ k = fuel ∧
            k < (chunksOf (chunkUnit cfg) ts).length ∧
            (runStore d w.db (((chunksOf (chunkUnit cfg) ts).take k).map bulkStatement)).1
              = List.replicate k none ∧
            (insertLoop cfg d fuel (some ts) w).2.logged = w.logged) ∨
          ((insertLoop cfg d fuel (some ts) w).1 = .returned none ∧
            k = (chunksOf (chunkUnit cfg) ts).length ∧
            (runStore d w.db (((chunksOf (chunkUnit cfg) ts).take k).map bulkStatement)).1
              = List.replicate k none ∧
            (insertLoop cfg d fuel (some ts) w).2.logged = w.logged) ∨
          (∃ e j ch, k = j + 1 ∧
            (insertLoop cfg d fuel (some ts) w).1 = .returned (some e) ∧
            (runStore d w.db (((chunksOf (chunkUnit cfg) ts).take k).map bulkStatement)).1
              = List.replicate j none ++ [some e] ∧
            (chunksOf (chunkUnit cfg) ts)[j]? = some ch ∧
            (insertLoop cfg d fuel (some ts) w).2.logged
              = w.logged ++ [LogLine.error "failed to insertTokenTransfers" e ch.length])) := by
  intro fuel
  induction fuel with
  | zero =>
    intro ts w hts
    have hne := chunksOf_ne_nil (chunkUnit cfg) ts hc hts
    refine ⟨0, Nat.zero_le _, by simp [insertLoop], by simp [insertLoop],
      by simp [insertLoop, runStore], Or.inl ⟨rfl, rfl, List.length_pos.mpr hne, ?_, rfl⟩⟩
    simp [runStore]
  | succ fuel ih =>
    intro ts w hts
    rcases Nat.lt_or_ge (chunkUnit cfg) ts.length with h | h
    · have htake : ts.take (chunkUnit cfg) ≠ [] := by
        intro h0
        have := congrArg List.length h0
        simp only [List.length_take, List.length_nil] at this
        omega
      have hdrop : ts.drop (chunkUnit cfg) ≠ [] := by
        intro h0
        have := congrArg List.length h0
        simp only [List.length_drop, List.length_nil] at this
        omega
      rw [insertLoop_long cfg d fuel ts w hc h, bulkInsert_nonempty d _ w htake,
        chunksOf_long (chunkUnit cfg) ts hc h]
      rcases hE : d.Exec w.db (bulkStatement (ts.take (chunkUnit cfg))).query
        (bulkStatement (ts.take (chunkUnit cfg))).args with ⟨e, db⟩
      cases e with
      | none =>
        simp only
        obtain ⟨k, hk, hsub, hexe, hdb, hcase⟩ := ih (ts.drop (chunkUnit cfg))
          { db := db
            executed := w.executed ++ [bulkStatement (ts.take (chunkUnit cfg))]
            submitted := w.submitted ++ [ts.take (chunkUnit cfg)]
            logged := w.logged } hdrop
        refine ⟨k + 1, by simpa using hk, ?_, ?_, ?_, ?_⟩
        · rw [hsub]; simp
        · rw [hexe]; simp
        · rw [hdb]; simp [runStore, hE]
        · rcases hcase with ⟨h1, h2, h3, h4, h5⟩ | ⟨h1, h2, h3, h4⟩ | ⟨e, j, ch, h1, h2, h3, h4, h5⟩
          · refine Or.inl ⟨h1, by omega, by simpa using h3, ?_, h5⟩
            simp only [List.take_succ_cons, List.map_cons, runStore, hE, h4, List.replicate_succ]
          · refine Or.inr (Or.inl ⟨h1, by simp [h2], ?_, h4⟩)
            simp only [List.take_succ_cons, List.map_cons, runStore, hE, h3, List.replicate_succ]
          · refine Or.inr (Or.inr ⟨e, j + 1, ch, by omega, h2, ?_, by simpa using h4, h5⟩)
            simp only [List.take_succ_cons, List.map_cons, runStore, hE, h3,
              List.replicate_succ, List.cons_append]
      | some err =>
        simp only
        refine ⟨1, by simp, by simp, by simp, by simp [runStore, hE], ?_⟩
        exact Or.inr (Or.inr ⟨err, 0, ts.take (chunkUnit cfg), rfl, rfl,
          by simp [runStore, hE], by simp, rfl⟩)
    · rw [insertLoop_short cfg d fuel ts w hc h, bulkInsert_nonempty d _ w hts,
        chunksOf_short (chunkUnit cfg) ts hts h]
      rcases hE : d.Exec w.db (bulkStatement ts).query (bulkStatement ts).args with ⟨e, db⟩
      cases e with
      | none =>
        simp only
        refine ⟨1, by simp, by simp, by simp, by simp [runStore, hE], ?_⟩
        exact Or.inr (Or.inl ⟨by trivial, by simp, by simp [runStore, hE], by trivial⟩)
      | some err =>
        simp only
        refine ⟨1, by simp, by simp, by simp, by simp [runStore, hE], ?_⟩
        exact Or.inr (Or.inr ⟨err, 0, ts, rfl, rfl, by simp [runStore, hE], by simp, rfl⟩)

theorem runStore_replies_length {σ : Type} (d : Database σ) (calls : List ExecCall) :
    ∀ s : σ, (runStore d s calls).1.length = calls.length := by
  induction calls with
  | nil => intro s; rfl
  | cons c rest ih => intro s; simp [runStore, ih]

theorem runStore_take {σ : Type} (d : Database σ) (calls : List ExecCall) :
    ∀ (k : Nat) (s : σ), (runStore d s (calls.take k)).1 = (runStore d s calls).1.take k := by
  induction calls with
  | nil => intro k s; simp [runStore]
  | cons c rest ih =>
    intro k s
    cases k with
    | zero => simp [runStore]
    | succ k => simp [runStore, ih]

theorem runStore_accepting {σ : Type} (d : Database σ)
    (haccept : ∀ s q a, (d.Exec s q a).1 = none) (calls : List ExecCall) :
    ∀ s : σ, ∀ r ∈ (runStore d s calls).1, r = none := by
  induction calls with
  | nil => intro s r hr; simp [runStore] at hr
  | cons c rest ih =>
    intro s r hr
    simp only [runStore, List.mem_cons] at hr
    rcases hr with h | h
    · rw [h]; exact haccept _ _ _
    · exact ih _ r h

theorem bulkRows_eq (ts : List KCTTransfer) :
    ∀ (vs : List String) (va : List SqlArg),
      bulkRows ts vs va
        = (vs ++ List.replicate ts.length "(?,?,?,?,?,?,?)", va ++ ts.flatMap rowArgs) := by
  induction ts with
  | nil => intro vs va; simp [bulkRows]
  | cons t rest ih =>
    intro vs va
    rw [bulkRows, ih]
    simp [List.replicate_succ, rowArgs, List.flatMap_cons]

theorem bulkStatement_args (ts : List KCTTransfer) :
    (bulkStatement ts).args = ts.flatMap rowArgs := by
  simp [bulkStatement, bulkRows_eq]

theorem bulkStatement_query (ts : List KCTTransfer) :
    (bulkStatement ts).query
      = sprintfRawQuery (stringsJoin (List.replicate ts.length "(?,?,?,?,?,?,?)") ",") := by
  simp [bulkStatement, bulkRows_eq]

theorem flatMap_rowArgs_length (ts : List KCTTransfer) :
    (ts.flatMap rowArgs).length = 7 * ts.length := by
  induction ts with
  | nil => rfl
  | cons t rest ih =>
    rw [List.flatMap_cons, List.length_append, ih]
    simp only [rowArgs, List.length_cons, List.length_nil]
    omega

theorem stringsJoin_placeholders (n : Nat) :
    placeholderCount (stringsJoin (List.replicate n "(?,?,?,?,?,?,?)") ",") = 7 * n := by
  induction n with
  | zero => rfl
  | succ n ih =>
    cases n with
    | zero => rfl
    | succ m =>
      rw [List.replicate_succ, List.replicate_succ, stringsJoin, ← List.replicate_succ]
      unfold placeholderCount at ih ⊢
      rw [String.data_append, String.data_append, List.count_append, List.count_append, ih]
      have h1 : List.count '?' "(?,?,?,?,?,?,?)".data = 7 := by decide
      have h2 : List.count '?' ",".data = 0 := by decide
      rw [h1, h2]
      omega

theorem bulkStatement_placeholders (ts : List KCTTransfer) :
    placeholderCount (bulkStatement ts).query = 7 * ts.length := by
  rw [bulkStatement_query]
  have h := stringsJoin_placeholders ts.length
  unfold placeholderCount sprintfRawQuery at *
  rw [String.data_append, String.data_append, List.count_append, List.count_append, h]
  have h1 : List.count '?' rawQueryHead.data = 0 := by decide
  have h2 : List.count '?' rawQueryTail.data = 0 := by decide
  rw [h1, h2]
  omega

/-- The decoder never returns an empty non-nil slice. -/
theorem transformsLogsLoop_ne_nil (cfg : Config) (timestamp : Int) (logs : List Log) :
    ∀ (acc : Option (List KCTTransfer)) (ts : List KCTTransfer),
      acc ≠ some [] → transformsLogsLoop cfg timestamp logs acc = .ok (some ts) → ts ≠ [] := by
  induction logs with
  | nil =>
    intro acc ts hacc h
    simp only [transformsLogsLoop, Except.ok.injEq] at h
    intro h0
    exact hacc (by rw [h, h0])
  | cons log rest ih =>
    intro acc ts hacc h
    rw [transformsLogsLoop] at h
    split at h
    · split at h
      · cases h
      · exact ih _ ts (by simp [appendTransfer]) h
    · exact ih acc ts hacc h

theorem transformsLogs_ne_nil (cfg : Config) (event : ChainEvent) (ts : List KCTTransfer)
    (h : transformsLogsToTokenTransfers cfg event = .ok (some ts)) : ts ≠ [] :=
  transformsLogsLoop_ne_nil cfg _ event.Logs none ts (by simp) h

theorem InsertTokenTransfers_of_decoded {σ : Type} (cfg : Config) (d : Database σ)
    (fuel : Nat) (event : ChainEvent) (w : World σ) (s : Option (List KCTTransfer))
    (h : transformsLogsToTokenTransfers cfg event = .ok s) :
    InsertTokenTransfers cfg d fuel event w = insertLoop cfg d fuel s w := by
  simp [InsertTokenTransfers, h]

/-! ## The bulk writer: chunking, placeholder limit, ordered abort, empty input -/

theorem insertLoop_nil {σ : Type} (cfg : Config) (d : Database σ) (fuel : Nat) (w : World σ) :
    insertLoop cfg d fuel none w = (.returned none, w) := by
  cases fuel <;> rfl

/-- With a database that accepts every statement and enough iterations, the loop
submits exactly the chunks of the list and returns nil. -/
theorem insertLoop_accepting {σ : Type} (cfg : Config) (d : Database σ)
    (ts : List KCTTransfer) (w : World σ) (fuel : Nat) (hc : 1 ≤ chunkUnit cfg)
    (haccept : ∀ s q a, (d.Exec s q a).1 = none) (hts : ts ≠ [])
    (hfuel : (chunksOf (chunkUnit cfg) ts).length ≤ fuel) :
    (insertLoop cfg d fuel (some ts) w).1 = .returned none ∧
    (insertLoop cfg d fuel (some ts) w).2.submitted
      = w.submitted ++ chunksOf (chunkUnit cfg) ts ∧
    (insertLoop cfg d fuel (some ts) w).2.executed
      = w.executed ++ (chunksOf (chunkUnit cfg) ts).map bulkStatement ∧
    (insertLoop cfg d fuel (some ts) w).2.db
      = (runStore d w.db ((chunksOf (chunkUnit cfg) ts).map bulkStatement)).2 ∧
    (insertLoop cfg d fuel (some ts) w).2.logged = w.logged := by
  obtain ⟨k, hk, hsub, hexe, hdb, hcase⟩ := insertLoop_trace cfg d hc fuel ts w hts
  rcases hcase with ⟨_, h2, h3, _, _⟩ | ⟨h1, h2, _, h4⟩ | ⟨e, j, ch, _, _, h3, _, _⟩
  · omega
  · rw [h2, List.take_length] at hsub hexe hdb
    exact ⟨h1, hsub, hexe, hdb, h4⟩
  · exfalso
    have hmem : some e ∈ (runStore d w.db
        (((chunksOf (chunkUnit cfg) ts).take k).map bulkStatement)).1 := by
      rw [h3]; simp
    have := runStore_accepting d haccept _ w.db (some e) hmem
    cases this

theorem chunksOf_25000 {α : Type} (xs : List α) (h : xs.length = 25000) :
    chunksOf 10000 xs = [xs.take 10000, (xs.drop 10000).take 10000, xs.drop 20000] := by
  have h1 : (xs.drop 10000).length = 15000 := by simp [h]
  have h2 : ((xs.drop 10000).drop 10000).length = 5000 := by simp [h]
  have hne : (xs.drop 10000).drop 10000 ≠ [] := by
    intro h0
    rw [h0] at h2
    simp at h2
  rw [chunksOf_long 10000 xs (by omega) (by omega),
    chunksOf_long 10000 (xs.drop 10000) (by omega) (by omega),
    chunksOf_short 10000 _ hne (by omega), List.drop_drop]

/-- C7. With `chunkUnit = maxPlaceholders / placeholdersPerKCTTransferItem ≥ 1` and a
database that accepts every statement, for every list of `N ≥ 1` records the loop of
`InsertTokenTransfers` (which is all the function does once the decoder has returned
the list) returns nil after passing to `bulkInsertTokenTransfers` exactly
`ceil(N / chunkUnit)` chunks; every chunk but the last has `chunkUnit` records, the last
has between 1 and `chunkUnit`, and the chunks concatenated in submission order are the
list. With `maxPlaceholders = 70000`, 7 placeholders per row and `N = 25000` the sizes
are `[10000, 10000, 5000]`. -/
theorem chunking_partitions_input {σ : Type} (cfg : Config) (d : Database σ)
    (ts : List KCTTransfer) (w : World σ) (fuel : Nat)
    (hc : 1 ≤ chunkUnit cfg)
    (haccept : ∀ s q a, (d.Exec s q a).1 = none)
    (hN : 1 ≤ ts.length)
    (hfuel : (ts.length + chunkUnit cfg - 1) / chunkUnit cfg ≤ fuel) :
    (∀ event, transformsLogsToTokenTransfers cfg event = .ok (some ts) →
      InsertTokenTransfers cfg d fuel event w = insertLoop cfg d fuel (some ts) w) ∧
    ∃ chunks : List (List KCTTransfer),
      (insertLoop cfg d fuel (some ts) w).1 = .returned none ∧
      (insertLoop cfg d fuel (some ts) w).2.submitted = w.submitted ++ chunks ∧
      chunks.length = (ts.length + chunkUnit cfg - 1) / chunkUnit cfg ∧
      (∀ ch ∈ chunks.dropLast, ch.length = chunkUnit cfg) ∧
      (∃ last, chunks.getLast? = some last ∧ 1 ≤ last.length ∧ last.length ≤ chunkUnit cfg) ∧
      chunks.flatten = ts ∧
      (cfg.maxPlaceholders = 70000 → cfg.placeholdersPerKCTTransferItem = 7 →
        ts.length = 25000 → chunks.map List.length = [10000, 10000, 5000]) := by
  have hts : ts ≠ [] := List.length_pos.mp hN
  have hlen := chunksOf_length (chunkUnit cfg) ts
  obtain ⟨hret, hsub, _, _, _⟩ :=
    insertLoop_accepting cfg d ts w fuel hc haccept hts (by rw [hlen]; exact hfuel)
  obtain ⟨hj, hb, hl⟩ := chunksOf_spec (chunkUnit cfg) hc ts.length ts (Nat.le_refl _)
  have hne := chunksOf_ne_nil (chunkUnit cfg) ts hc hts
  refine ⟨fun event h => InsertTokenTransfers_of_decoded cfg d fuel event w _ h,
    chunksOf (chunkUnit cfg) ts, hret, hsub, hlen, hl, ?_, hj, ?_⟩
  · refine ⟨(chunksOf (chunkUnit cfg) ts).getLast hne, List.getLast?_eq_getLast _ hne, ?_⟩
    exact hb _ (List.getLast_mem hne)
  · intro hM hP hlen25
    have hcu : chunkUnit cfg = 10000 := by simp [chunkUnit, hM, hP]
    rw [hcu, chunksOf_25000 ts hlen25]
    simp [hlen25]

/-- Witness for C7: five records, at most two rows per statement. -/
theorem chunking_partitions_input_witness :
    ∃ chunks : List (List KCTTransfer),
      (insertLoop tinyConfig acceptingDb 3 (some fiveRecords) (freshWorld 0)).1
        = .returned none ∧
      (insertLoop tinyConfig acceptingDb 3 (some fiveRecords) (freshWorld 0)).2.submitted
        = chunks ∧
      chunks.length = 3 ∧ chunks.flatten = fiveRecords := by
  obtain ⟨_, chunks, h1, h2, h3, _, _, h6, _⟩ :=
    chunking_partitions_input tinyConfig acceptingDb fiveRecords (freshWorld 0) 3
      (by decide) (fun _ _ _ => rfl) (by decide) (by decide)
  exact ⟨chunks, h1, by simpa [freshWorld] using h2, h3, h6⟩

/-- C8. Whatever the event, the database and the number of iterations run, each
statement `InsertTokenTransfers` has executed was built for one submitted chunk, binds
7 arguments per row of that chunk, has as many `?` placeholders in its text, and that
number is at most `maxPlaceholders` (for `placeholdersPerKCTTransferItem = 7` and
`maxPlaceholders ≥ 7`). -/
theorem statements_within_placeholder_limit {σ : Type} (cfg : Config) (d : Database σ)
    (fuel : Nat) (event : ChainEvent) (w : World σ)
    (hP : cfg.placeholdersPerKCTTransferItem = 7) (hM : 7 ≤ cfg.maxPlaceholders) :
    ∃ chunksRun : List (List KCTTransfer),
      (InsertTokenTransfers cfg d fuel event w).2.executed
        = w.executed ++ chunksRun.map bulkStatement ∧
      (InsertTokenTransfers cfg d fuel event w).2.submitted = w.submitted ++ chunksRun ∧
      ∀ ch ∈ chunksRun,
        (bulkStatement ch).args.length = 7 * ch.length ∧
        placeholderCount (bulkStatement ch).query = 7 * ch.length ∧
        7 * ch.length ≤ cfg.maxPlaceholders := by
  have hc : 1 ≤ chunkUnit cfg := by
    unfold chunkUnit
    rw [hP]
    omega
  have hcM : 7 * chunkUnit cfg ≤ cfg.maxPlaceholders := by
    unfold chunkUnit
    rw [hP]
    omega
  cases hdec : transformsLogsToTokenTransfers cfg event with
  | error p =>
    refine ⟨[], ?_, ?_, by simp⟩ <;> simp [InsertTokenTransfers, hdec]
  | ok s =>
    rw [InsertTokenTransfers_of_decoded cfg d fuel event w s hdec]
    cases s with
    | none =>
      rw [insertLoop_nil]
      exact ⟨[], by simp, by simp, by simp⟩
    | some ts =>
      have hts := transformsLogs_ne_nil cfg event ts hdec
      obtain ⟨k, _, hsub, hexe, _, _⟩ := insertLoop_trace cfg d hc fuel ts w hts
      obtain ⟨_, hb, _⟩ := chunksOf_spec (chunkUnit cfg) hc ts.length ts (Nat.le_refl _)
      refine ⟨(chunksOf (chunkUnit cfg) ts).take k, hexe, hsub, ?_⟩
      intro ch hch
      have hbound := (hb ch (List.mem_of_mem_take hch)).2
      refine ⟨?_, bulkStatement_placeholders ch, by omega⟩
      rw [bulkStatement_args, flatMap_rowArgs_length]

/-- Witness for C8: the sample event under constants allowing two rows per statement. -/
theorem statements_within_placeholder_limit_witness :
    ∃ chunksRun : List (List KCTTransfer),
      (InsertTokenTransfers tinyConfig acceptingDb 3
          ⟨⟨1000⟩, [sampleLogA, sampleOtherLog, sampleLogB, sampleLogA]⟩ (freshWorld 0)).2.executed
        = chunksRun.map bulkStatement ∧
      ∀ ch ∈ chunksRun, (bulkStatement ch).args.length = 7 * ch.length ∧
        7 * ch.length ≤ 15 := by
  obtain ⟨chunksRun, h1, _, h3⟩ :=
    statements_within_placeholder_limit tinyConfig acceptingDb 3
      ⟨⟨1000⟩, [sampleLogA, sampleOtherLog, sampleLogB, sampleLogA]⟩ (freshWorld 0) rfl
      (by decide)
  exact ⟨chunksRun, by simpa [freshWorld] using h1, fun ch hch => ⟨(h3 ch hch).1, (h3 ch hch).2.2⟩⟩

/-- C9. Ordered abort, for `chunkUnit ≥ 1`, a non-empty list and enough iterations.
Let the replies be what the database answers to the statements of the chunks, executed
one after the other. If reply `k` (counted from 0) is the first error, the loop of
`InsertTokenTransfers` returns exactly that error, the chunks submitted and the
statements executed are those of chunks `0..k`, in order, and nothing more; if no reply
is an error, it returns nil after submitting every chunk. For 25000 records, chunks of
10000 and a failure on the second chunk, the database is given the first 10000 records,
then records 10001 to 20000, and nothing else. -/
theorem ordered_abort {σ : Type} (cfg : Config) (d : Database σ)
    (ts : List KCTTransfer) (w : World σ) (fuel : Nat)
    (hc : 1 ≤ chunkUnit cfg) (hts : ts ≠ [])
    (hfuel : (chunksOf (chunkUnit cfg) ts).length ≤ fuel) :
    (∀ event, transformsLogsToTokenTransfers cfg event = .ok (some ts) →
      InsertTokenTransfers cfg d fuel event w = insertLoop cfg d fuel (some ts) w) ∧
    (∀ (k : Nat) (e : DbError),
      (runStore d w.db ((chunksOf (chunkUnit cfg) ts).map bulkStatement)).1[k]? = some (some e) →
      (∀ j, j < k →
        (runStore d w.db ((chunksOf (chunkUnit cfg) ts).map bulkStatement)).1[j]? = some none) →
      (insertLoop cfg d fuel (some ts) w).1 = .returned (some e) ∧
      (insertLoop cfg d fuel (some ts) w).2.submitted
        = w.submitted ++ (chunksOf (chunkUnit cfg) ts).take (k + 1) ∧
      (insertLoop cfg d fuel (some ts) w).2.executed
        = w.executed ++ ((chunksOf (chunkUnit cfg) ts).take (k + 1)).map bulkStatement ∧
      (chunkUnit cfg = 10000 → ts.length = 25000 → k = 1 →
        (insertLoop cfg d fuel (some ts) w).2.submitted
          = w.submitted ++ [ts.take 10000, (ts.drop 10000).take 10000])) ∧
    ((∀ r ∈ (runStore d w.db ((chunksOf (chunkUnit cfg) ts).map bulkStatement)).1, r = none) →
      (insertLoop cfg d fuel (some ts) w).1 = .returned none ∧
      (insertLoop cfg d fuel (some ts) w).2.submitted
        = w.submitted ++ chunksOf (chunkUnit cfg) ts ∧
      (insertLoop cfg d fuel (some ts) w).2.executed
        = w.executed ++ (chunksOf (chunkUnit cfg) ts).map bulkStatement) := by
  obtain ⟨k0, hk0, hsub, hexe, _, hcase⟩ := insertLoop_trace cfg d hc fuel ts w hts
  have hpre : (runStore d w.db (((chunksOf (chunkUnit cfg) ts).take k0).map bulkStatement)).1
      = (runStore d w.db ((chunksOf (chunkUnit cfg) ts).map bulkStatement)).1.take k0 := by
    rw [List.map_take, runStore_take]
  refine ⟨fun event h => InsertTokenTransfers_of_decoded cfg d fuel event w _ h, ?_, ?_⟩
  · intro k e hk hbefore
    rcases hcase with ⟨_, h2, h3, _, _⟩ | ⟨_, h2, h3, _⟩ | ⟨e0, j, ch, h1, h2, h3, _, _⟩
    · omega
    · exfalso
      rw [hpre, h2] at h3
      have hlen := runStore_replies_length d ((chunksOf (chunkUnit cfg) ts).map bulkStatement) w.db
      rw [List.length_map] at hlen
      rw [← hlen, List.take_length] at h3
      rw [h3] at hk
      have hklt : k < (List.replicate (runStore d w.db
          ((chunksOf (chunkUnit cfg) ts).map bulkStatement)).1.length
          (none : Option DbError)).length := by
        by_contra hge
        rw [List.getElem?_eq_none (by omega)] at hk
        cases hk
      rw [List.getElem?_eq_getElem hklt, List.getElem_replicate] at hk
      cases hk
    · rw [hpre] at h3
      have hj : (runStore d w.db ((chunksOf (chunkUnit cfg) ts).map bulkStatement)).1[j]?
          = some (some e0) := by
        have := congrArg (fun l => l[j]?) h3
        simp only at this
        rw [List.getElem?_take_of_lt (by omega)] at this
        rw [this]
        simp
      have hlt : ∀ i, i < j →
          (runStore d w.db ((chunksOf (chunkUnit cfg) ts).map bulkStatement)).1[i]?
            = some none := by
        intro i hi
        have := congrArg (fun l => l[i]?) h3
        simp only at this
        rw [List.getElem?_take_of_lt (by omega)] at this
        rw [this, List.getElem?_append_left (by simpa using hi)]
        simp [hi]
      have hkj : k = j := by
        rcases Nat.lt_trichotomy k j with hlt' | heq | hgt
        · rw [hlt k hlt'] at hk
          cases hk
        · exact heq
        · rw [hbefore j hgt] at hj
          cases hj
      subst hkj
      rw [hj] at hk
      have he : e0 = e := by
        simpa using hk
      subst he
      rw [h1] at hsub hexe
      refine ⟨h2, hsub, hexe, ?_⟩
      intro hcu hlen hk1
      rw [hsub, hcu, chunksOf_25000 ts hlen, hk1]
      rfl
  · intro hall
    rcases hcase with ⟨_, h2, h3, _, _⟩ | ⟨h1, h2, _, _⟩ | ⟨e0, j, ch, h1, _, h3, _, _⟩
    · omega
    · rw [h2, List.take_length] at hsub hexe
      exact ⟨h1, hsub, hexe⟩
    · exfalso
      rw [hpre] at h3
      have hmem : some e0 ∈ (runStore d w.db
          ((chunksOf (chunkUnit cfg) ts).map bulkStatement)).1 := by
        apply List.mem_of_mem_take (n := k0)
        rw [h3]
        simp
      have := hall _ hmem
      cases this

/-- Witness for C9: five records in chunks of two, the second statement rejected. -/
theorem ordered_abort_witness :
    (insertLoop tinyConfig (failingDb 2) 3 (some fiveRecords) (freshWorld 0)).1
      = .returned (some ⟨"rejected"⟩) ∧
    (insertLoop tinyConfig (failingDb 2) 3 (some fiveRecords) (freshWorld 0)).2.submitted
      = [[recordWithId 0, recordWithId 1], [recordWithId 2, recordWithId 3]] := by
  obtain ⟨h1, h2, _, _⟩ :=
    (ordered_abort tinyConfig (failingDb 2) fiveRecords (freshWorld 0) 3
      (by decide) (by decide) (by decide)).2.1 1 ⟨"rejected"⟩ rfl
      (by intro j hj; interval_cases j; rfl)
  exact ⟨h1, by rw [h2]; rfl⟩

theorem transformsLogs_no_match (cfg : Config) (event : ChainEvent)
    (h : ∀ log ∈ event.Logs, ¬ matchesSignature log) :
    transformsLogsToTokenTransfers cfg event = .ok none := by
  obtain ⟨new, hloop, hall⟩ := transformsLogsLoop_spec cfg (bigIntInt64 event.Block.Time)
    event.Logs none (fun log hlog hm => absurd hm (h log hlog))
  have hf : (event.Logs.filter fun log => decide (matchesSignature log)) = [] := by
    rw [List.filter_eq_nil_iff]
    intro log hlog
    simpa using h log hlog
  rw [hf] at hall
  cases hall
  simpa [transformsLogsToTokenTransfers] using hloop

/-- C10. Empty input is trivial success at both levels. For a chain event without a
topic-matching log `InsertTokenTransfers` returns nil and leaves everything as it was:
no statement executed, `bulkInsertTokenTransfers` not even called. And
`bulkInsertTokenTransfers` on an empty or nil list returns nil without executing a
statement or touching the database. -/
theorem empty_input_trivial_success {σ : Type} (cfg : Config) (d : Database σ) (fuel : Nat)
    (event : ChainEvent) (w : World σ) (s : Option (List KCTTransfer)) :
    ((∀ log ∈ event.Logs, ¬ matchesSignature log) →
      (InsertTokenTransfers cfg d fuel event w).1 = .returned none ∧
      (InsertTokenTransfers cfg d fuel event w).2.executed = w.executed ∧
      (InsertTokenTransfers cfg d fuel event w).2.submitted = w.submitted ∧
      (InsertTokenTransfers cfg d fuel event w).2.db = w.db) ∧
    (elems s = [] →
      (bulkInsertTokenTransfers d s w).1 = none ∧
      (bulkInsertTokenTransfers d s w).2.executed = w.executed ∧
      (bulkInsertTokenTransfers d s w).2.db = w.db) := by
  constructor
  · intro h
    rw [InsertTokenTransfers_of_decoded cfg d fuel event w none
      (transformsLogs_no_match cfg event h), insertLoop_nil]
    exact ⟨rfl, rfl, rfl, rfl⟩
  · intro h
    rw [bulkInsert_empty d s w h]
    exact ⟨rfl, rfl, rfl⟩

/-- Witness for C10: an event whose two logs do not match, with no iteration budget at
all, and the nil list. -/
theorem empty_input_trivial_success_witness :
    (InsertTokenTransfers sampleConfig (failingDb 1) 0
        ⟨⟨1000⟩, [sampleOtherLog, { sampleOtherLog with Topics := [] }]⟩ (freshWorld 0)).1
      = .returned none ∧
    (bulkInsertTokenTransfers (failingDb 1) none (freshWorld 0)).1 = none := by
  have h := empty_input_trivial_success sampleConfig (failingDb 1) 0
    ⟨⟨1000⟩, [sampleOtherLog, { sampleOtherLog with Topics := [] }]⟩ (freshWorld 0) none
  exact ⟨(h.1 (by decide)).1, (h.2 rfl).1⟩

/-! ## The decoder: splitting, safety, malformed logs -/

theorem payloadWords_eq_chunksOf (data : Bytes) (h : HashLength ∣ data.len) :
    (payloadWords data).map (fun w => w.bytes) = chunksOf HashLength data.elems := by
  obtain ⟨m, hm⟩ := h
  have hd : data.len / HashLength = m := by rw [hm]; simp [HashLength]
  have hn : (data.elems.length + HashLength - 1) / HashLength = m := by
    simp only [Bytes.len] at hm
    rw [hm]; simp only [HashLength]; omega
  rw [payloadWords, chunksOf, hd, hn, List.map_map]
  apply List.map_congr_left
  intro k hk
  have hk' : k < m := List.mem_range.mp hk
  simp only [Function.comp]
  apply BytesToHash_bytes
  simp only [List.length_take, List.length_drop]
  simp only [Bytes.len] at hm
  have : HashLength * (k + 1) ≤ HashLength * m := Nat.mul_le_mul_left _ hk'
  have e : HashLength * (k + 1) = HashLength * k + HashLength := by ring
  omega

theorem payloadWords_getElem? (data : Bytes) (h : HashLength ∣ data.len) (i : Nat)
    (hi : i < data.len / HashLength) :
    ((payloadWords data)[i]?).map (fun w => w.bytes)
      = some ((data.elems.drop (HashLength * i)).take HashLength) := by
  have hmap := payloadWords_eq_chunksOf data h
  have := congrArg (fun l => l[i]?) hmap
  simp only [List.getElem?_map] at this
  rw [this, chunksOf, List.getElem?_map]
  have hn : i < (data.elems.length + HashLength - 1) / HashLength := by
    obtain ⟨m, hm⟩ := h
    simp only [Bytes.len] at hm hi
    rw [hm] at hi ⊢
    simp only [HashLength] at hi ⊢
    omega
  rw [List.getElem?_range hn]
  rfl

/-- C15. `splitToWords` is a lossless split: on a byte string whose length is a
multiple of 32 it returns (without panic) exactly `len/32` words, word `i` holds the
bytes `data[32i .. 32i+31]`, the words concatenated in order are the byte string, and
for the empty string there are no words. -/
theorem splitToWords_lossless (data : Bytes) (h : 32 ∣ data.len) :
    ∃ words, splitToWords data = .ok words ∧
      words.length = data.len / 32 ∧
      (∀ i, i < data.len / 32 →
        (words[i]?).map (fun w => w.bytes) = some ((data.elems.drop (32 * i)).take 32)) ∧
      (words.map fun w => w.bytes).flatten = data.elems ∧
      (data.len = 0 → words = []) := by
  refine ⟨payloadWords data, splitToWords_of_dvd data h, payloadWords_length data,
    fun i hi => payloadWords_getElem? data h i hi, ?_, ?_⟩
  · rw [payloadWords_eq_chunksOf data h]
    exact (chunksOf_spec HashLength (by decide) data.elems.length data.elems (Nat.le_refl _)).1
  · intro h0
    apply List.eq_nil_of_length_eq_zero
    rw [payloadWords_length, h0]
    rfl

/-- Witness for C15: the 96-byte payload of the sample log splits into its three words. -/
theorem splitToWords_lossless_witness :
    ∃ words, splitToWords sampleLogA.Data = .ok words ∧ words.length = 3 ∧
      (words.map fun w => w.bytes).flatten = sampleLogA.Data.elems := by
  obtain ⟨words, h1, h2, _, h4, _⟩ := splitToWords_lossless sampleLogA.Data (by decide)
  exact ⟨words, h1, by rw [h2]; decide, h4⟩

/-- C16. Decoding is safe on well-formed input: when the payload length is a multiple
of 32 and topics plus payload words are at least 4, neither `splitToWords` nor
`transformLogToTokenTransfer` panics and a record is returned, built from elements
1, 2 and 3 of topics followed by payload words whatever the layout. -/
theorem decoding_safe_on_well_formed (cfg : Config) (log : Log)
    (h32 : 32 ∣ log.Data.len) (h4 : 4 ≤ log.Topics.length + log.Data.len / 32) :
    ∃ words w1 w2 w3,
      splitToWords log.Data = .ok words ∧
      (log.Topics ++ words)[1]? = some w1 ∧ (log.Topics ++ words)[2]? = some w2 ∧
      (log.Topics ++ words)[3]? = some w3 ∧
      transformLogToTokenTransfer cfg log = .ok
        { ContractAddress := log.Address.bytes
          From := w1.bytes.drop 12
          To := w2.bytes.drop 12
          TransactionLogId := txLogId cfg log
          Value := "0x" ++ bigIntText16 (bigIntSetBytes w3.bytes)
          TransactionHash := log.TxHash.bytes
          Timestamp := 0 } := by
  have hlen : 4 ≤ (log.Topics ++ payloadWords log.Data).length := by
    rw [List.length_append, payloadWords_length]
    exact h4
  obtain ⟨w1, h1, _⟩ := index_of_lt (log.Topics ++ payloadWords log.Data) 1 (by omega)
  obtain ⟨w2, h2, _⟩ := index_of_lt (log.Topics ++ payloadWords log.Data) 2 (by omega)
  obtain ⟨w3, h3, _⟩ := index_of_lt (log.Topics ++ payloadWords log.Data) 3 (by omega)
  exact ⟨payloadWords log.Data, w1, w2, w3, splitToWords_of_dvd log.Data h32, h1, h2, h3,
    transformLog_of_words cfg log _ w1 w2 w3 (logWords_of_dvd log h32) h1 h2 h3⟩

/-- Witness for C16: the two mixed layouts, topics `[signature, from]` with payload
`to ++ value` and topics `[signature, from, to, value]` with empty payload, both
decode to the sample record. -/
theorem decoding_safe_on_well_formed_witness :
    transformLogToTokenTransfer sampleConfig sampleLogMixed = .ok sampleRecord ∧
    transformLogToTokenTransfer sampleConfig sampleLogAllTopics = .ok sampleRecord := by
  obtain ⟨words, w1, w2, w3, hs, h1, h2, h3, hr⟩ :=
    decoding_safe_on_well_formed sampleConfig sampleLogMixed (by decide) (by decide)
  obtain ⟨words', v1, v2, v3, gs, g1, g2, g3, gr⟩ :=
    decoding_safe_on_well_formed sampleConfig sampleLogAllTopics (by decide) (by decide)
  have hs' : splitToWords sampleLogMixed.Data = .ok [smallWord 2, smallWord 100] := rfl
  have gs' : splitToWords sampleLogAllTopics.Data = .ok [] := rfl
  rw [hs'] at hs
  rw [gs'] at gs
  cases hs
  cases gs
  cases h1
  cases h2
  cases h3
  cases g1
  cases g2
  cases g3
  exact ⟨by rw [hr]; rfl, by rw [gr]; rfl⟩

theorem logWords_short (log : Log) (h32 : 32 ∣ log.Data.len) :
    ∃ d, logWords log = .ok d ∧ d.length = log.Topics.length + log.Data.len / 32 := by
  refine ⟨_, logWords_of_dvd log h32, ?_⟩
  rw [List.length_append, payloadWords_length]
  rfl

/-- A matching log with fewer than 4 elements panics on the first missing element. -/
theorem transformLog_malformed (cfg : Config) (log : Log) (hm : matchesSignature log)
    (h32 : 32 ∣ log.Data.len) (hlt : log.Topics.length + log.Data.len / 32 < 4) :
    transformLogToTokenTransfer cfg log =
      .error (.indexOutOfRange (log.Topics.length + log.Data.len / 32)
        (log.Topics.length + log.Data.len / 32)) ∧
    1 ≤ log.Topics.length + log.Data.len / 32 := by
  obtain ⟨d, hd, hlen⟩ := logWords_short log h32
  have htop : 1 ≤ log.Topics.length := by
    have := hm.1
    exact List.length_pos.mpr this
  refine ⟨?_, by omega⟩
  rw [← hlen]
  have hcases : d.length = 1 ∨ d.length = 2 ∨ d.length = 3 := by omega
  rcases hcases with h | h | h
  · simp only [transformLogToTokenTransfer, hd, index_of_le d 1 (by omega), h]
  · obtain ⟨w1, _, i1⟩ := index_of_lt d 1 (by omega)
    simp only [transformLogToTokenTransfer, hd, i1, index_of_le d 2 (by omega), h]
  · obtain ⟨w1, _, i1⟩ := index_of_lt d 1 (by omega)
    obtain ⟨w2, _, i2⟩ := index_of_lt d 2 (by omega)
    simp only [transformLogToTokenTransfer, hd, i1, i2, index_of_le d 3 (by omega), h]

theorem transformsLogsLoop_panics (cfg : Config) (timestamp : Int) (logs : List Log)
    (bad : Log) (hbad : bad ∈ logs) (hm : matchesSignature bad)
    (herr : ∃ p, transformLogToTokenTransfer cfg bad = .error p) :
    ∀ acc, ∃ p, transformsLogsLoop cfg timestamp logs acc = .error p := by
  induction logs with
  | nil => cases hbad
  | cons log rest ih =>
    intro acc
    rw [transformsLogsLoop]
    by_cases hl : isTokenTransfer log = true
    · rw [if_pos hl]
      cases hr : transformLogToTokenTransfer cfg log with
      | error p => exact ⟨p, rfl⟩
      | ok r =>
        simp only
        rcases List.mem_cons.mp hbad with rfl | hin
        · obtain ⟨p, hp⟩ := herr
          rw [hp] at hr
          cases hr
        · exact ih hin _
    · rw [if_neg hl]
      rcases List.mem_cons.mp hbad with rfl | hin
      · exact absurd ((isTokenTransfer_iff bad).mpr hm) hl
      · exact ih hin _

/-- C13. A malformed matching log is an error, not a record: when the first topic is
the transfer signature, the payload length is a multiple of 32 and topics plus payload
words are `n < 4` elements, `transformLogToTokenTransfer` panics with an index out of
range on element `n` (which is 1, 2 or 3) and returns no record; for any event
containing such a log `transformsLogsToTokenTransfers` panics, and so does
`InsertTokenTransfers`, leaving the database and the traces of submitted chunks and
executed statements as they were. -/
theorem malformed_matching_log_panics {σ : Type} (cfg : Config) (d : Database σ)
    (fuel : Nat) (event : ChainEvent) (w : World σ) (log : Log)
    (hin : log ∈ event.Logs) (hm : matchesSignature log) (h32 : 32 ∣ log.Data.len)
    (hlt : log.Topics.length + log.Data.len / 32 < 4) :
    (∃ n, n = log.Topics.length + log.Data.len / 32 ∧ 1 ≤ n ∧ n ≤ 3 ∧
      transformLogToTokenTransfer cfg log = .error (.indexOutOfRange n n)) ∧
    ∃ p, transformsLogsToTokenTransfers cfg event = .error p ∧
      InsertTokenTransfers cfg d fuel event w = (.panicked p, w) := by
  obtain ⟨herr, hpos⟩ := transformLog_malformed cfg log hm h32 hlt
  refine ⟨⟨_, rfl, hpos, by omega, herr⟩, ?_⟩
  obtain ⟨p, hp⟩ := transformsLogsLoop_panics cfg (bigIntInt64 event.Block.Time) event.Logs
    log hin hm ⟨_, herr⟩ none
  refine ⟨p, hp, ?_⟩
  have hp' : transformsLogsToTokenTransfers cfg event = .error p := hp
  simp [InsertTokenTransfers, hp']

/-- Witness for C13: a good transfer log followed by one with only the signature and a
single payload word; decoding the second panics on element 2. -/
theorem malformed_matching_log_panics_witness :
    transformLogToTokenTransfer sampleConfig sampleLogShort = .error (.indexOutOfRange 2 2) ∧
    InsertTokenTransfers sampleConfig acceptingDb 5 ⟨⟨1000⟩, [sampleLogA, sampleLogShort]⟩
      (freshWorld 0) = (.panicked (.indexOutOfRange 2 2), freshWorld 0) := by
  obtain ⟨⟨n, hn, _, _, herr⟩, p, hp, hins⟩ :=
    malformed_matching_log_panics sampleConfig acceptingDb 5
      ⟨⟨1000⟩, [sampleLogA, sampleLogShort]⟩ (freshWorld 0) sampleLogShort
      (by simp) (by decide) (by decide) (by decide)
  have hn2 : n = 2 := by rw [hn]; decide
  subst hn2
  refine ⟨herr, ?_⟩
  have hp2 : transformsLogsToTokenTransfers sampleConfig
      ⟨⟨1000⟩, [sampleLogA, sampleLogShort]⟩ = .error (.indexOutOfRange 2 2) := rfl
  rw [hp2] at hp
  cases hp
  exact hins

/-! ## The transaction log id: exactness and wrap-around -/

theorem int64_modEq (z : Int) : int64 z ≡ z [ZMOD 2 ^ 64] := by
  unfold int64
  have h : (z + 2 ^ 63) % 2 ^ 64 ≡ z + 2 ^ 63 [ZMOD 2 ^ 64] := Int.mod_modEq _ _
  have h2 := h.sub_right (2 ^ 63)
  simpa using h2

theorem int64_congr {x y : Int} (h : x ≡ y [ZMOD 2 ^ 64]) : int64 x = int64 y := by
  unfold int64
  have h2 : (x + 2 ^ 63) % 2 ^ 64 = (y + 2 ^ 63) % 2 ^ 64 := h.add_right (2 ^ 63)
  rw [h2]

theorem uint64ToInt64_modEq (x : Nat) : uint64ToInt64 x ≡ (x : Int) [ZMOD 2 ^ 64] := by
  unfold uint64ToInt64
  refine (int64_modEq _).trans ?_
  have : ((x % 2 ^ 64 : Nat) : Int) = (x : Int) % 2 ^ 64 := by
    push_cast
    rfl
  rw [this]
  exact Int.mod_modEq _ _

/-- Whatever the log, the id is the formula reduced modulo `2^64` and read as signed. -/
theorem txLogId_wraps (cfg : Config) (log : Log) :
    txLogId cfg log
      = int64 ((log.BlockNumber : Int) * cfg.maxTxCountPerBlock * cfg.maxTxLogCountPerTx
          + (log.TxIndex : Int) * cfg.maxTxLogCountPerTx + (log.Index : Int)) := by
  unfold txLogId
  apply int64_congr
  have hb := uint64ToInt64_modEq log.BlockNumber
  have ht := uint64ToInt64_modEq log.TxIndex
  have hi := uint64ToInt64_modEq log.Index
  have h1 : int64 (uint64ToInt64 log.BlockNumber * cfg.maxTxCountPerBlock)
      ≡ (log.BlockNumber : Int) * cfg.maxTxCountPerBlock [ZMOD 2 ^ 64] :=
    (int64_modEq _).trans (hb.mul_right _)
  have h2 : int64 (int64 (uint64ToInt64 log.BlockNumber * cfg.maxTxCountPerBlock)
        * cfg.maxTxLogCountPerTx)
      ≡ (log.BlockNumber : Int) * cfg.maxTxCountPerBlock * cfg.maxTxLogCountPerTx
        [ZMOD 2 ^ 64] :=
    (int64_modEq _).trans (h1.mul_right _)
  have h3 : int64 (uint64ToInt64 log.TxIndex * cfg.maxTxLogCountPerTx)
      ≡ (log.TxIndex : Int) * cfg.maxTxLogCountPerTx [ZMOD 2 ^ 64] :=
    (int64_modEq _).trans (ht.mul_right _)
  exact ((int64_modEq _).trans (h2.add h3)).add hi

/-- C17. The id arithmetic is exact only below the `int64` limit. When the transaction
index is below `maxTxCountPerBlock`, the log index below `maxTxLogCountPerTx` and
`(block_number + 1) * maxTxCountPerBlock * maxTxLogCountPerTx ≤ 2^63`, the computed id
is the mathematical value of the formula and is non-negative. The code checks no bound:
for every log the id is the formula reduced modulo `2^64` and read as a signed 64-bit
value, which beyond the limit differs from the formula (block 92233721 with the sample
constants gets a negative id). -/
theorem txLogId_exact_below_limit (cfg : Config) (log : Log) :
    ((log.TxIndex : Int) < cfg.maxTxCountPerBlock →
      (log.Index : Int) < cfg.maxTxLogCountPerTx →
      ((log.BlockNumber : Int) + 1) * cfg.maxTxCountPerBlock * cfg.maxTxLogCountPerTx
        ≤ 2 ^ 63 →
      txLogId cfg log
          = (log.BlockNumber : Int) * cfg.maxTxCountPerBlock * cfg.maxTxLogCountPerTx
            + (log.TxIndex : Int) * cfg.maxTxLogCountPerTx + (log.Index : Int) ∧
        0 ≤ txLogId cfg log) ∧
    txLogId cfg log
      = ((log.BlockNumber : Int) * cfg.maxTxCountPerBlock * cfg.maxTxLogCountPerTx
          + (log.TxIndex : Int) * cfg.maxTxLogCountPerTx + (log.Index : Int) + 2 ^ 63)
          % 2 ^ 64 - 2 ^ 63 ∧
    txLogId sampleConfig (logAt 92233721 0 0) = 92233721 * 1000000 * 100000 - 2 ^ 64 := by
  refine ⟨?_, ?_, by decide⟩
  · intro ht hi hb
    have hex := txLogId_exact cfg log ht hi hb
    refine ⟨hex, ?_⟩
    rw [hex]
    have hb0 : (0 : Int) ≤ log.BlockNumber := Int.ofNat_nonneg _
    have ht0 : (0 : Int) ≤ log.TxIndex := Int.ofNat_nonneg _
    have hi0 : (0 : Int) ≤ log.Index := Int.ofNat_nonneg _
    have hK1 : 0 ≤ cfg.maxTxCountPerBlock := by omega
    have hK2 : 0 ≤ cfg.maxTxLogCountPerTx := by omega
    have h1 : 0 ≤ (log.BlockNumber : Int) * cfg.maxTxCountPerBlock * cfg.maxTxLogCountPerTx :=
      Int.mul_nonneg (Int.mul_nonneg hb0 hK1) hK2
    have h2 : 0 ≤ (log.TxIndex : Int) * cfg.maxTxLogCountPerTx := Int.mul_nonneg ht0 hK2
    omega
  · have h := txLogId_wraps cfg log
    rw [h]
    rfl

/-- Witness for C17: block 92233719, the last one below the limit for the sample
constants, with the largest indices. -/
theorem txLogId_exact_below_limit_witness :
    txLogId sampleConfig (logAt 92233719 999999 99999) = 9223371999999999999 := by
  have h := ((txLogId_exact_below_limit sampleConfig (logAt 92233719 999999 99999)).1
    (by decide) (by decide) (by decide)).1
  rw [h]
  decide

/-! ## The decoder and concatenation of log lists -/

theorem transformsLogsLoop_append (cfg : Config) (timestamp : Int) (l1 l2 : List Log) :
    ∀ acc, transformsLogsLoop cfg timestamp (l1 ++ l2) acc =
      match transformsLogsLoop cfg timestamp l1 acc with
      | .error p => .error p
      | .ok r => transformsLogsLoop cfg timestamp l2 r := by
  induction l1 with
  | nil => intro acc; simp [transformsLogsLoop]
  | cons log rest ih =>
    intro acc
    simp only [List.cons_append, transformsLogsLoop]
    split
    · cases transformLogToTokenTransfer cfg log with
      | error p => rfl
      | ok r => exact ih _
    · exact ih _

theorem appendSlices_of_nil {α : Type} (a b : Option (List α)) (h : elems b = []) :
    appendSlices a b = a := by
  unfold appendSlices
  rw [h]

theorem appendSlices_of_cons {α : Type} (a b : Option (List α)) (x : α) (xs : List α)
    (h : elems b = x :: xs) : appendSlices a b = some (elems a ++ x :: xs) := by
  unfold appendSlices
  rw [h]

theorem appendSlices_appendTransfer (acc r : Option (List KCTTransfer)) (t : KCTTransfer) :
    appendSlices acc (appendSlices (appendTransfer none t) r)
      = appendSlices (appendTransfer acc t) r := by
  cases hr : elems r with
  | nil =>
    rw [appendSlices_of_nil _ r hr, appendSlices_of_nil _ r hr,
      appendSlices_of_cons acc (appendTransfer none t) t [] rfl]
    rfl
  | cons x xs =>
    rw [appendSlices_of_cons _ r x xs hr, appendSlices_of_cons _ r x xs hr,
      appendSlices_of_cons acc (some (elems (appendTransfer none t) ++ x :: xs)) t (x :: xs)
        rfl]
    simp [appendTransfer, elems]

theorem transformsLogsLoop_acc (cfg : Config) (timestamp : Int) (logs : List Log) :
    ∀ acc, transformsLogsLoop cfg timestamp logs acc =
      match transformsLogsLoop cfg timestamp logs none with
      | .error p => .error p
      | .ok r => .ok (appendSlices acc r) := by
  induction logs with
  | nil => intro acc; simp [transformsLogsLoop, appendSlices, elems]
  | cons log rest ih =>
    intro acc
    simp only [transformsLogsLoop]
    split
    · cases transformLogToTokenTransfer cfg log with
      | error p => rfl
      | ok t =>
        simp only
        rw [ih (appendTransfer acc _), ih (appendTransfer none _)]
        cases transformsLogsLoop cfg timestamp rest none with
        | error p => rfl
        | ok r =>
          simp only
          rw [appendSlices_appendTransfer]
    · exact ih acc

theorem elems_appendSlices {α : Type} (a b : Option (List α)) :
    elems (appendSlices a b) = elems a ++ elems b := by
  cases hb : elems b with
  | nil => rw [appendSlices_of_nil a b hb, List.append_nil]
  | cons x xs => rw [appendSlices_of_cons a b x xs hb]; rfl

/-- C19. The decoder distributes over concatenation of log lists: for every block and
log lists `l1`, `l2` whose matching logs are decodable, the output for `l1 ++ l2` is
the output for `l1` followed by the output for `l2` (Go `append`, so nil when both are
nil); and inserting or removing a log that does not match the transfer signature,
anywhere in the event, does not change the output. -/
theorem decoder_distributes_over_append (cfg : Config) (block : Block) (l1 l2 : List Log)
    (hdec : ∀ log ∈ l1 ++ l2, matchesSignature log →
      ∃ d, logWords log = .ok d ∧ 4 ≤ d.length) :
    (∃ r1 r2, transformsLogsToTokenTransfers cfg ⟨block, l1⟩ = .ok r1 ∧
      transformsLogsToTokenTransfers cfg ⟨block, l2⟩ = .ok r2 ∧
      transformsLogsToTokenTransfers cfg ⟨block, l1 ++ l2⟩ = .ok (appendSlices r1 r2) ∧
      elems (appendSlices r1 r2) = elems r1 ++ elems r2) ∧
    (∀ x, ¬ matchesSignature x →
      transformsLogsToTokenTransfers cfg ⟨block, l1 ++ x :: l2⟩
        = transformsLogsToTokenTransfers cfg ⟨block, l1 ++ l2⟩) := by
  constructor
  · obtain ⟨n1, h1', _⟩ := transformsLogsLoop_spec cfg (bigIntInt64 block.Time) l1 none
      (fun log hl hm => hdec log (List.mem_append_left _ hl) hm)
    obtain ⟨n2, h2', _⟩ := transformsLogsLoop_spec cfg (bigIntInt64 block.Time) l2 none
      (fun log hl hm => hdec log (List.mem_append_right _ hl) hm)
    refine ⟨_, _, h1', h2', ?_, elems_appendSlices _ _⟩
    show transformsLogsLoop cfg (bigIntInt64 block.Time) (l1 ++ l2) none = _
    rw [transformsLogsLoop_append, h1']
    simp only
    rw [transformsLogsLoop_acc, h2']
  · intro x hx
    have hskip : ¬ isTokenTransfer x = true := fun h => hx ((isTokenTransfer_iff x).mp h)
    show transformsLogsLoop cfg (bigIntInt64 block.Time) (l1 ++ x :: l2) none
      = transformsLogsLoop cfg (bigIntInt64 block.Time) (l1 ++ l2) none
    rw [transformsLogsLoop_append, transformsLogsLoop_append]
    cases transformsLogsLoop cfg (bigIntInt64 block.Time) l1 none with
    | error p => rfl
    | ok r =>
      simp only
      rw [transformsLogsLoop, if_neg hskip]

/-- Witness for C19: the two sample transfer logs, one per list. -/
theorem decoder_distributes_over_append_witness :
    transformsLogsToTokenTransfers sampleConfig ⟨⟨1000⟩, [sampleLogA] ++ [sampleLogB]⟩
      = .ok (some [{ sampleRecord with Timestamp := 1000 },
          { sampleRecord with Timestamp := 1000 }]) := by
  obtain ⟨r1, r2, h1, h2, h12, _⟩ :=
    (decoder_distributes_over_append sampleConfig ⟨1000⟩ [sampleLogA] [sampleLogB]
      (by
        intro log hlog _
        simp only [List.mem_append, List.mem_singleton] at hlog
        rcases hlog with rfl | rfl
        · exact ⟨[tokenTransferEventHash, smallWord 1, smallWord 2, smallWord 100], rfl,
            by decide⟩
        · exact ⟨[tokenTransferEventHash, smallWord 1, smallWord 2, smallWord 100], rfl,
            by decide⟩)).1
  have e1 : transformsLogsToTokenTransfers sampleConfig ⟨⟨1000⟩, [sampleLogA]⟩
      = .ok (some [{ sampleRecord with Timestamp := 1000 }]) := rfl
  have e2 : transformsLogsToTokenTransfers sampleConfig ⟨⟨1000⟩, [sampleLogB]⟩
      = .ok (some [{ sampleRecord with Timestamp := 1000 }]) := rfl
  rw [e1] at h1
  rw [e2] at h2
  cases h1
  cases h2
  rw [h12]
  rfl

/-! ## The statement built for a chunk -/

theorem intercalate_go_eq (sep : String) (rest : List String) :
    ∀ (acc b : String),
      String.intercalate.go acc sep (b :: rest) = acc ++ sep ++ stringsJoin (b :: rest) sep := by
  induction rest with
  | nil => intro acc b; simp [String.intercalate.go, stringsJoin]
  | cons c rest ih =>
    intro acc b
    rw [String.intercalate.go, ih, stringsJoin]
    simp only [String.append_assoc]

theorem stringsJoin_eq_intercalate (l : List String) (sep : String) :
    stringsJoin l sep = sep.intercalate l := by
  cases l with
  | nil => rfl
  | cons a rest =>
    cases rest with
    | nil => rfl
    | cons b rest =>
      rw [String.intercalate, intercalate_go_eq, stringsJoin]

theorem flatMap_rowArgs_block (ts : List KCTTransfer) :
    ∀ (i : Nat) (r : KCTTransfer), ts[i]? = some r →
      ((ts.flatMap rowArgs).drop (7 * i)).take 7 = rowArgs r := by
  induction ts with
  | nil => intro i r h; simp at h
  | cons t rest ih =>
    intro i r h
    have hlen : (rowArgs t).length = 7 := rfl
    cases i with
    | zero =>
      simp only [List.getElem?_cons_zero, Option.some.injEq] at h
      subst h
      rw [List.flatMap_cons, Nat.mul_zero, List.drop_zero, List.take_left' hlen]
    | succ i =>
      simp only [List.getElem?_cons_succ] at h
      have e : 7 * (i + 1) = (rowArgs t).length + 7 * i := by rw [hlen]; ring
      rw [List.flatMap_cons, e, List.drop_append]
      exact ih i r h

/-- C11. Statement and arguments line up. For a non-empty chunk of `n` records
`bulkInsertTokenTransfers` executes one statement: its text is the `INSERT` with the
column list (transactionLogId, fromAddr, toAddr, value, contractAddress,
transactionHash, timestamp), a `VALUES` clause of exactly `n` copies of
`(?,?,?,?,?,?,?)` joined by `,`, and the `ON DUPLICATE KEY UPDATE` tail; its arguments
are `7n` values, positions `7i .. 7i+6` being record `i`'s TransactionLogId, From, To,
Value, ContractAddress, TransactionHash, Timestamp; and the number of `?` in the text
equals the number of arguments. -/
theorem statement_and_arguments_line_up {σ : Type} (d : Database σ) (w : World σ)
    (chunk : List KCTTransfer) (hne : chunk ≠ []) :
    ∃ call : ExecCall,
      (bulkInsertTokenTransfers d (some chunk) w).2.executed = w.executed ++ [call] ∧
      (bulkInsertTokenTransfers d (some chunk) w).1 = (d.Exec w.db call.query call.args).1 ∧
      call.query =
        "\n\t\t\tINSERT INTO kct_transfers(transactionLogId, fromAddr, toAddr, value, contractAddress, transactionHash, timestamp)\n\t\t\tVALUES "
          ++ ",".intercalate (List.replicate chunk.length "(?,?,?,?,?,?,?)")
          ++ "\n\t\t\tON DUPLICATE KEY\n\t\t\tUPDATE transactionLogId=transactionLogId" ∧
      call.args.length = 7 * chunk.length ∧
      (∀ i r, chunk[i]? = some r →
        (call.args.drop (7 * i)).take 7 =
          [SqlArg.int64 r.TransactionLogId, SqlArg.bytes r.From, SqlArg.bytes r.To,
           SqlArg.string r.Value, SqlArg.bytes r.ContractAddress,
           SqlArg.bytes r.TransactionHash, SqlArg.int64 r.Timestamp]) ∧
      placeholderCount call.query = call.args.length := by
  refine ⟨bulkStatement chunk, ?_, ?_, ?_, ?_, ?_, ?_⟩
  · rw [bulkInsert_nonempty d chunk w hne]
  · rw [bulkInsert_nonempty d chunk w hne]
  · rw [bulkStatement_query, stringsJoin_eq_intercalate]
    rfl
  · rw [bulkStatement_args, flatMap_rowArgs_length]
  · intro i r h
    rw [bulkStatement_args, flatMap_rowArgs_block chunk i r h]
    rfl
  · rw [bulkStatement_placeholders, bulkStatement_args, flatMap_rowArgs_length]

/-- Witness for C11: a chunk of two records. -/
theorem statement_and_arguments_line_up_witness :
    ∃ call : ExecCall,
      (bulkInsertTokenTransfers acceptingDb (some [recordWithId 7, recordWithId 8])
        (freshWorld 0)).2.executed = [call] ∧
      call.args.length = 14 ∧ placeholderCount call.query = 14 ∧
      (call.args.drop 7).take 1 = [SqlArg.int64 8] := by
  obtain ⟨call, h1, _, _, h4, h5, h6⟩ :=
    statement_and_arguments_line_up acceptingDb (freshWorld 0)
      [recordWithId 7, recordWithId 8] (by simp)
  refine ⟨call, by simpa [freshWorld] using h1, h4, by rw [h6, h4]; rfl, ?_⟩
  have h := h5 1 (recordWithId 8) rfl
  have h' := congrArg (List.take 1) h
  rw [List.take_take] at h'
  exact h'

/-! ## Failure reporting -/

/-- What the loop has done when reply `k` is the first error: it returns that error,
has submitted chunks `0..k`, and has logged the error with the length of chunk `k`. -/
theorem insertLoop_first_failure {σ : Type} (cfg : Config) (d : Database σ)
    (ts : List KCTTransfer) (w : World σ) (fuel : Nat)
    (hc : 1 ≤ chunkUnit cfg) (hts : ts ≠ [])
    (hfuel : (chunksOf (chunkUnit cfg) ts).length ≤ fuel) (k : Nat) (e : DbError)
    (hk : (runStore d w.db ((chunksOf (chunkUnit cfg) ts).map bulkStatement)).1[k]?
      = some (some e))
    (hbefore : ∀ j, j < k →
      (runStore d w.db ((chunksOf (chunkUnit cfg) ts).map bulkStatement)).1[j]? = some none) :
    (insertLoop cfg d fuel (some ts) w).1 = .returned (some e) ∧
    (insertLoop cfg d fuel (some ts) w).2.submitted
      = w.submitted ++ (chunksOf (chunkUnit cfg) ts).take (k + 1) ∧
    ∃ ch, (chunksOf (chunkUnit cfg) ts)[k]? = some ch ∧
      (insertLoop cfg d fuel (some ts) w).2.logged
        = w.logged ++ [LogLine.error "failed to insertTokenTransfers" e ch.length] := by
  obtain ⟨k0, hk0, hsub, _, _, hcase⟩ := insertLoop_trace cfg d hc fuel ts w hts
  have hpre : (runStore d w.db (((chunksOf (chunkUnit cfg) ts).take k0).map bulkStatement)).1
      = (runStore d w.db ((chunksOf (chunkUnit cfg) ts).map bulkStatement)).1.take k0 := by
    rw [List.map_take, runStore_take]
  have hlen := runStore_replies_length d ((chunksOf (chunkUnit cfg) ts).map bulkStatement) w.db
  rw [List.length_map] at hlen
  have hklt : k < (chunksOf (chunkUnit cfg) ts).length := by
    by_contra hge
    rw [List.getElem?_eq_none (by omega)] at hk
    cases hk
  rcases hcase with ⟨_, h2, h3, _, _⟩ | ⟨_, h2, h3, _⟩ | ⟨e0, j, ch, h1, h2, h3, h4, h5⟩
  · omega
  · exfalso
    rw [hpre, h2, ← hlen, List.take_length] at h3
    rw [h3, List.getElem?_eq_getElem (by simpa [hlen] using hklt),
      List.getElem_replicate] at hk
    cases hk
  · rw [hpre] at h3
    have hj : (runStore d w.db ((chunksOf (chunkUnit cfg) ts).map bulkStatement)).1[j]?
        = some (some e0) := by
      have := congrArg (fun l => l[j]?) h3
      simp only at this
      rw [List.getElem?_take_of_lt (by omega)] at this
      rw [this]
      simp
    have hlt : ∀ i, i < j →
        (runStore d w.db ((chunksOf (chunkUnit cfg) ts).map bulkStatement)).1[i]?
          = some none := by
      intro i hi
      have := congrArg (fun l => l[i]?) h3
      simp only at this
      rw [List.getElem?_take_of_lt (by omega)] at this
      rw [this, List.getElem?_append_left (by simpa using hi)]
      simp [hi]
    have hkj : k = j := by
      rcases Nat.lt_trichotomy k j with hlt' | heq | hgt
      · rw [hlt k hlt'] at hk
        cases hk
      · exact heq
      · rw [hbefore j hgt] at hj
        cases hj
    subst hkj
    rw [hj] at hk
    have he : e0 = e := by simpa using hk
    subst he
    rw [h1] at hsub
    exact ⟨h2, hsub, ch, h4, h5⟩
/-- Counterexample to C14 as stated. The same event is written with at most two rows
per statement to a database that rejects the first statement (a chunk of 2 records)
and to one that rejects the third (a chunk of 1 record). The caller gets the same
value in both runs, the database's error and nothing else, so what is returned does
not carry the count of the failing chunk; the counts 2 and 1 are in the log records. -/
theorem returned_error_carries_no_count :
    (InsertTokenTransfers tinyConfig (failingDb 1) 3 sampleEventFive (freshWorld 0)).1
      = .returned (some ⟨"rejected"⟩) ∧
    (InsertTokenTransfers tinyConfig (failingDb 3) 3 sampleEventFive (freshWorld 0)).1
      = .returned (some ⟨"rejected"⟩) ∧
    (InsertTokenTransfers tinyConfig (failingDb 1) 3 sampleEventFive (freshWorld 0)).2.logged
      = [LogLine.error "failed to insertTokenTransfers" ⟨"rejected"⟩ 2] ∧
    (InsertTokenTransfers tinyConfig (failingDb 3) 3 sampleEventFive (freshWorld 0)).2.logged
      = [LogLine.error "failed to insertTokenTransfers" ⟨"rejected"⟩ 1] ∧
    ¬ ∃ count : Outcome → Nat,
      count (InsertTokenTransfers tinyConfig (failingDb 1) 3 sampleEventFive (freshWorld 0)).1
        = 2 ∧
      count (InsertTokenTransfers tinyConfig (failingDb 3) 3 sampleEventFive (freshWorld 0)).1
        = 1 := by
  have h1 : (InsertTokenTransfers tinyConfig (failingDb 1) 3 sampleEventFive (freshWorld 0)).1
      = .returned (some ⟨"rejected"⟩) := by rfl
  have h2 : (InsertTokenTransfers tinyConfig (failingDb 3) 3 sampleEventFive (freshWorld 0)).1
      = .returned (some ⟨"rejected"⟩) := by rfl
  refine ⟨h1, h2, by rfl, by rfl, ?_⟩
  rintro ⟨count, c1, c2⟩
  rw [h1] at c1
  rw [h2] at c2
  omega

/-- C14 (amended). When reply `k` of the database is the first error, the loop of
`InsertTokenTransfers` (all the function does once the decoder has returned the list)
returns that error unchanged, and writes one error record to the log carrying the
error and the number of records of the failing chunk `k`: 10000 for a failure on the
second chunk of 25000 records in chunks of 10000, not the total 25000 and not the
15000 still unpersisted. -/
theorem failure_returns_error_and_logs_count {σ : Type} (cfg : Config) (d : Database σ)
    (ts : List KCTTransfer) (w : World σ) (fuel : Nat)
    (hc : 1 ≤ chunkUnit cfg) (hts : ts ≠ [])
    (hfuel : (chunksOf (chunkUnit cfg) ts).length ≤ fuel) (k : Nat) (e : DbError)
    (hk : (runStore d w.db ((chunksOf (chunkUnit cfg) ts).map bulkStatement)).1[k]?
      = some (some e))
    (hbefore : ∀ j, j < k →
      (runStore d w.db ((chunksOf (chunkUnit cfg) ts).map bulkStatement)).1[j]? = some none) :
    (∀ event, transformsLogsToTokenTransfers cfg event = .ok (some ts) →
      InsertTokenTransfers cfg d fuel event w = insertLoop cfg d fuel (some ts) w) ∧
    (insertLoop cfg d fuel (some ts) w).1 = .returned (some e) ∧
    ∃ ch, (chunksOf (chunkUnit cfg) ts)[k]? = some ch ∧
      (insertLoop cfg d fuel (some ts) w).2.logged
        = w.logged ++ [LogLine.error "failed to insertTokenTransfers" e ch.length] ∧
      (chunkUnit cfg = 10000 → ts.length = 25000 → k = 1 → ch.length = 10000) := by
  obtain ⟨hret, _, ch, hch, hlog⟩ :=
    insertLoop_first_failure cfg d ts w fuel hc hts hfuel k e hk hbefore
  refine ⟨fun event h => InsertTokenTransfers_of_decoded cfg d fuel event w _ h, hret, ch,
    hch, hlog, ?_⟩
  intro hcu hlen hk1
  rw [hcu, chunksOf_25000 ts hlen, hk1] at hch
  simp only [List.getElem?_cons_succ, List.getElem?_cons_zero, Option.some.injEq] at hch
  rw [← hch]
  simp [hlen]

/-- Witness for C14 (amended): five records in chunks of two, the second statement
rejected; the error is returned and logged with the chunk length 2. -/
theorem failure_returns_error_and_logs_count_witness :
    (insertLoop tinyConfig (failingDb 2) 3 (some fiveRecords) (freshWorld 0)).1
      = .returned (some ⟨"rejected"⟩) ∧
    (insertLoop tinyConfig (failingDb 2) 3 (some fiveRecords) (freshWorld 0)).2.logged
      = [LogLine.error "failed to insertTokenTransfers" ⟨"rejected"⟩ 2] := by
  obtain ⟨_, h1, ch, hch, hlog, _⟩ :=
    failure_returns_error_and_logs_count tinyConfig (failingDb 2) fiveRecords (freshWorld 0) 3
      (by decide) (by decide) (by decide) 1 ⟨"rejected"⟩ rfl
      (by intro j hj; interval_cases j; rfl)
  have hch' : (chunksOf (chunkUnit tinyConfig) fiveRecords)[1]?
      = some [recordWithId 2, recordWithId 3] := rfl
  rw [hch'] at hch
  cases hch
  exact ⟨h1, by rw [hlog]; rfl⟩

/-! ## Termination of the chunking loop -/

/-- With `maxPlaceholders < placeholdersPerKCTTransferItem` one iteration on a non-empty
list submits an empty chunk and leaves the list as it is. -/
theorem insertLoop_stuck_step {σ : Type} (cfg : Config) (d : Database σ) (fuel : Nat)
    (ts : List KCTTransfer) (w : World σ)
    (hlt : cfg.maxPlaceholders < cfg.placeholdersPerKCTTransferItem) (hts : ts ≠ []) :
    chunkUnit cfg = 0 ∧
    insertLoop cfg d (fuel + 1) (some ts) w =
      insertLoop cfg d fuel (some ts)
        { db := w.db
          executed := w.executed
          submitted := w.submitted ++ [[]]
          logged := w.logged ++ [LogLine.debug "the token transfer list is empty"] } := by
  have hcu : chunkUnit cfg = 0 := Nat.div_eq_of_lt hlt
  have hpos : 0 < ts.length := List.length_pos.mpr hts
  have hcond : cfg.placeholdersPerKCTTransferItem * ts.length > cfg.maxPlaceholders := by
    have : cfg.placeholdersPerKCTTransferItem * 1 ≤ cfg.placeholdersPerKCTTransferItem * ts.length :=
      Nat.mul_le_mul_left _ hpos
    omega
  refine ⟨hcu, ?_⟩
  rw [insertLoop]
  simp only [if_pos hcond, hcu, List.take_zero, List.drop_zero]
  rw [bulkInsert_empty d (some []) w rfl]

theorem insertLoop_stuck {σ : Type} (cfg : Config) (d : Database σ)
    (ts : List KCTTransfer)
    (hlt : cfg.maxPlaceholders < cfg.placeholdersPerKCTTransferItem) (hts : ts ≠ []) :
    ∀ (fuel : Nat) (w : World σ),
      (insertLoop cfg d fuel (some ts) w).1 = .running ∧
      (insertLoop cfg d fuel (some ts) w).2.submitted
        = w.submitted ++ List.replicate fuel [] ∧
      (insertLoop cfg d fuel (some ts) w).2.executed = w.executed ∧
      (insertLoop cfg d fuel (some ts) w).2.db = w.db := by
  intro fuel
  induction fuel with
  | zero => intro w; simp [insertLoop]
  | succ fuel ih =>
    intro w
    rw [(insertLoop_stuck_step cfg d fuel ts w hlt hts).2]
    obtain ⟨h1, h2, h3, h4⟩ := ih
      { db := w.db
        executed := w.executed
        submitted := w.submitted ++ [[]]
        logged := w.logged ++ [LogLine.debug "the token transfer list is empty"] }
    refine ⟨h1, ?_, h3, h4⟩
    rw [h2, List.replicate_succ]
    simp

/-- C18. The chunking loop terminates whenever
`maxPlaceholders ≥ placeholdersPerKCTTransferItem > 0`: then `chunkUnit ≥ 1`, an
iteration on a list longer than `chunkUnit` whose chunk is accepted continues with the
list shortened by exactly `chunkUnit`, and for every event the function has returned or
panicked within `ceil(N / chunkUnit)` iterations, `N` being the number of decoded
records, having called `bulkInsertTokenTransfers` at most that many times. When
`maxPlaceholders < placeholdersPerKCTTransferItem`, `chunkUnit` is 0 and on a non-empty
list the loop makes no progress: every iteration submits an empty chunk, executes
nothing and leaves the list unchanged, whatever the number of iterations. -/
theorem chunking_loop_terminates {σ : Type} (cfg : Config) (d : Database σ)
    (ts : List KCTTransfer) (w : World σ) (fuel : Nat) :
    (0 < cfg.placeholdersPerKCTTransferItem →
      cfg.placeholdersPerKCTTransferItem ≤ cfg.maxPlaceholders →
      1 ≤ chunkUnit cfg ∧
      (chunkUnit cfg < ts.length →
        (bulkInsertTokenTransfers d (some (ts.take (chunkUnit cfg))) w).1 = none →
        insertLoop cfg d (fuel + 1) (some ts) w
          = insertLoop cfg d fuel (some (ts.drop (chunkUnit cfg)))
              (bulkInsertTokenTransfers d (some (ts.take (chunkUnit cfg))) w).2 ∧
        (ts.drop (chunkUnit cfg)).length + chunkUnit cfg = ts.length) ∧
      (∀ event s, transformsLogsToTokenTransfers cfg event = .ok s → elems s = ts →
        (ts.length + chunkUnit cfg - 1) / chunkUnit cfg ≤ fuel →
        (InsertTokenTransfers cfg d fuel event w).1 ≠ .running ∧
        (InsertTokenTransfers cfg d fuel event w).2.submitted.length
          ≤ w.submitted.length + (ts.length + chunkUnit cfg - 1) / chunkUnit cfg)) ∧
    (cfg.maxPlaceholders < cfg.placeholdersPerKCTTransferItem → ts ≠ [] →
      chunkUnit cfg = 0 ∧
      (insertLoop cfg d fuel (some ts) w).1 = .running ∧
      (insertLoop cfg d fuel (some ts) w).2.submitted
        = w.submitted ++ List.replicate fuel [] ∧
      (insertLoop cfg d fuel (some ts) w).2.executed = w.executed ∧
      (insertLoop cfg d fuel (some ts) w).2.db = w.db ∧
      insertLoop cfg d (fuel + 1) (some ts) w =
        insertLoop cfg d fuel (some ts) (bulkInsertTokenTransfers d (some []) w).2) := by
  constructor
  · intro hP hPM
    have hc : 1 ≤ chunkUnit cfg := by
      unfold chunkUnit
      exact (Nat.one_le_div_iff hP).mpr hPM
    refine ⟨hc, ?_, ?_⟩
    · intro hlong hacc
      refine ⟨?_, by simp only [List.length_drop]; omega⟩
      rw [insertLoop_long cfg d fuel ts w hc hlong]
      rcases hb : bulkInsertTokenTransfers d (some (ts.take (chunkUnit cfg))) w with ⟨e, w1⟩
      rw [hb] at hacc
      simp only at hacc
      subst hacc
      rfl
    · intro event s hdec hs hfuel
      rw [InsertTokenTransfers_of_decoded cfg d fuel event w s hdec]
      cases s with
      | none =>
        rw [insertLoop_nil]
        exact ⟨by simp, by simp⟩
      | some ts' =>
        have hts' : ts' = ts := hs
        subst hts'
        have hne := transformsLogs_ne_nil cfg event ts' hdec
        have hlen := chunksOf_length (chunkUnit cfg) ts'
        obtain ⟨k, hk, hsub, _, _, hcase⟩ := insertLoop_trace cfg d hc fuel ts' w hne
        refine ⟨?_, ?_⟩
        · rcases hcase with ⟨_, h2, h3, _, _⟩ | ⟨h1, _, _, _⟩ | ⟨e, j, ch, _, h2, _, _, _⟩
          · omega
          · rw [h1]; simp
          · rw [h2]; simp
        · rw [hsub, List.length_append, List.length_take]
          omega
  · intro hlt hts
    obtain ⟨h1, h2, h3, h4⟩ := insertLoop_stuck cfg d ts hlt hts fuel w
    obtain ⟨hcu, hstep⟩ := insertLoop_stuck_step cfg d fuel ts w hlt hts
    refine ⟨hcu, h1, h2, h3, h4, ?_⟩
    rw [hstep, bulkInsert_empty d (some []) w rfl]

/-- Witness for C18: five decoded records in chunks of two are written within three
iterations; with fewer placeholders than one row needs the loop is still running
after ten. -/
theorem chunking_loop_terminates_witness :
    (InsertTokenTransfers tinyConfig acceptingDb 3 sampleEventFive (freshWorld 0)).1
      ≠ .running ∧
    (insertLoop { tinyConfig with maxPlaceholders := 6 } acceptingDb 10 (some fiveRecords)
      (freshWorld 0)).1 = .running := by
  have hdec : transformsLogsToTokenTransfers tinyConfig sampleEventFive
      = .ok (some (List.map (fun i => { sampleRecord with
          TransactionLogId := 500000200000 + i, Timestamp := 1000 }) [0, 1, 2, 3, 4])) := rfl
  have h := chunking_loop_terminates tinyConfig acceptingDb
    (List.map (fun i => { sampleRecord with
      TransactionLogId := 500000200000 + i, Timestamp := 1000 }) [0, 1, 2, 3, 4])
    (freshWorld 0) 3
  have g := chunking_loop_terminates { tinyConfig with maxPlaceholders := 6 } acceptingDb
    fiveRecords (freshWorld 0) 10
  exact ⟨((h.1 (by decide) (by decide)).2.2 sampleEventFive _ hdec rfl (by decide)).1,
    (g.2 (by decide) (by decide)).2.1⟩

/-! ## Idempotent persistence -/

theorem rowsOfArgs_flatMap (ts : List KCTTransfer) :
    rowsOfArgs (ts.flatMap rowArgs) = some (ts.map rowOf) := by
  induction ts with
  | nil => rfl
  | cons t rest ih =>
    rw [List.flatMap_cons]
    show rowsOfArgs (SqlArg.int64 t.TransactionLogId :: SqlArg.bytes t.From
      :: SqlArg.bytes t.To :: SqlArg.string t.Value :: SqlArg.bytes t.ContractAddress
      :: SqlArg.bytes t.TransactionHash :: SqlArg.int64 t.Timestamp
      :: rest.flatMap rowArgs) = _
    rw [rowsOfArgs, ih]
    rfl

theorem bulkInsert_upsert (ch : List KCTTransfer) (w : World (List Row)) :
    (bulkInsertTokenTransfers upsertStore (some ch) w).1 = none ∧
    (bulkInsertTokenTransfers upsertStore (some ch) w).2.db
      = (ch.map rowOf).foldl upsertRow w.db := by
  by_cases hne : ch = []
  · subst hne
    rw [bulkInsert_empty upsertStore (some []) w rfl]
    exact ⟨rfl, rfl⟩
  · rw [bulkInsert_nonempty upsertStore ch w hne]
    simp only [upsertStore, bulkStatement_args, rowsOfArgs_flatMap]
    exact ⟨trivial, trivial⟩

/-- A run of the loop on the upsert store that returns nil has upserted the rows of all
records, in order. -/
theorem insertLoop_upsert (cfg : Config) :
    ∀ (fuel : Nat) (ts : List KCTTransfer) (w : World (List Row)),
      (insertLoop cfg upsertStore fuel (some ts) w).1 = .returned none →
      (insertLoop cfg upsertStore fuel (some ts) w).2.db
        = (ts.map rowOf).foldl upsertRow w.db := by
  intro fuel
  induction fuel with
  | zero =>
    intro ts w h
    simp [insertLoop] at h
  | succ fuel ih =>
    intro ts w h
    rw [insertLoop] at h ⊢
    by_cases hcond : cfg.placeholdersPerKCTTransferItem * ts.length > cfg.maxPlaceholders
    · simp only [if_pos hcond] at h ⊢
      obtain ⟨hb1, hb2⟩ := bulkInsert_upsert (ts.take (chunkUnit cfg)) w
      rcases hb : bulkInsertTokenTransfers upsertStore (some (ts.take (chunkUnit cfg))) w
        with ⟨e, w1⟩
      rw [hb] at hb1 hb2 h
      dsimp only at hb1 hb2
      subst hb1
      simp only at h ⊢
      rw [ih _ w1 h, hb2, ← List.foldl_append, ← List.map_append, List.take_append_drop]
    · simp only [if_neg hcond] at h ⊢
      obtain ⟨hb1, hb2⟩ := bulkInsert_upsert ts w
      rcases hb : bulkInsertTokenTransfers upsertStore (some ts) w with ⟨e, w1⟩
      rw [hb] at hb1 hb2 h
      dsimp only at hb1 hb2
      subst hb1
      simp only at h ⊢
      rw [insertLoop_nil]
      exact hb2

theorem upsertRow_of_mem (table : List Row) (row : Row)
    (h : row.transactionLogId ∈ table.map fun r => r.transactionLogId) :
    upsertRow table row = table := by
  unfold upsertRow
  rw [if_pos]
  obtain ⟨r, hr, hk⟩ := List.mem_map.mp h
  exact List.any_eq_true.mpr ⟨r, hr, by simpa using hk⟩

theorem upsertRow_of_not_mem (table : List Row) (row : Row)
    (h : row.transactionLogId ∉ table.map fun r => r.transactionLogId) :
    upsertRow table row = table ++ [row] := by
  unfold upsertRow
  rw [if_neg]
  intro hany
  obtain ⟨r, hr, hk⟩ := List.any_eq_true.mp hany
  exact h (List.mem_map.mpr ⟨r, hr, by simpa using hk⟩)

theorem upsertRow_keys (table : List Row) (row : Row) (k : Int) :
    k ∈ (upsertRow table row).map (fun r => r.transactionLogId) ↔
      k ∈ table.map (fun r => r.transactionLogId) ∨ k = row.transactionLogId := by
  by_cases h : row.transactionLogId ∈ table.map fun r => r.transactionLogId
  · rw [upsertRow_of_mem table row h]
    constructor
    · exact Or.inl
    · rintro (hk | hk)
      · exact hk
      · rw [hk]; exact h
  · rw [upsertRow_of_not_mem table row h]
    simp

theorem upsertRows_keys (rows : List Row) :
    ∀ (table : List Row) (k : Int),
      k ∈ (rows.foldl upsertRow table).map (fun r => r.transactionLogId) ↔
        k ∈ table.map (fun r => r.transactionLogId) ∨
          k ∈ rows.map (fun r => r.transactionLogId) := by
  induction rows with
  | nil => intro table k; simp
  | cons row rest ih =>
    intro table k
    rw [List.foldl_cons, ih, upsertRow_keys]
    simp only [List.map_cons, List.mem_cons]
    tauto

theorem upsertRows_of_keys_present (rows : List Row) :
    ∀ table : List Row,
      (∀ row ∈ rows, row.transactionLogId ∈ table.map fun r => r.transactionLogId) →
      rows.foldl upsertRow table = table := by
  induction rows with
  | nil => intro table _; rfl
  | cons row rest ih =>
    intro table h
    rw [List.foldl_cons, upsertRow_of_mem table row (h row (List.mem_cons_self _ _))]
    exact ih table fun r hr => h r (List.mem_cons_of_mem _ hr)

theorem upsertRows_idempotent (rows table : List Row) :
    rows.foldl upsertRow (rows.foldl upsertRow table) = rows.foldl upsertRow table := by
  apply upsertRows_of_keys_present
  intro row hrow
  rw [upsertRows_keys]
  exact Or.inr (List.mem_map.mpr ⟨row, hrow, rfl⟩)

theorem upsertRows_nodup (rows : List Row) :
    ∀ table : List Row, (table.map fun r => r.transactionLogId).Nodup →
      ((rows.foldl upsertRow table).map fun r => r.transactionLogId).Nodup := by
  induction rows with
  | nil => intro table h; exact h
  | cons row rest ih =>
    intro table h
    rw [List.foldl_cons]
    apply ih
    by_cases hk : row.transactionLogId ∈ table.map fun r => r.transactionLogId
    · rw [upsertRow_of_mem table row hk]; exact h
    · rw [upsertRow_of_not_mem table row hk, List.map_append, List.map_cons, List.map_nil]
      exact List.Nodup.append h (List.nodup_singleton _) (by simpa using hk)

/-- Every row of the table after upserting `rows` was in the table before, or is the
first of `rows` with its key, that key being new. -/
theorem upsertRows_rows (rows : List Row) :
    ∀ (table : List Row) (row : Row), row ∈ rows.foldl upsertRow table →
      row ∈ table ∨
        (row.transactionLogId ∉ table.map (fun r => r.transactionLogId) ∧
          rows.find? (fun r => decide (r.transactionLogId = row.transactionLogId)) = some row) := by
  induction rows with
  | nil => intro table row h; exact Or.inl h
  | cons r rest ih =>
    intro table row h
    rw [List.foldl_cons] at h
    by_cases hk : r.transactionLogId ∈ table.map fun x => x.transactionLogId
    · rw [upsertRow_of_mem table r hk] at h
      rcases ih table row h with h1 | ⟨h1, h2⟩
      · exact Or.inl h1
      · refine Or.inr ⟨h1, ?_⟩
        have hne : ¬ r.transactionLogId = row.transactionLogId := by
          intro heq
          rw [heq] at hk
          exact h1 hk
        rw [List.find?_cons_of_neg _ (by simpa using hne)]
        exact h2
    · rw [upsertRow_of_not_mem table r hk] at h
      rcases ih (table ++ [r]) row h with h1 | ⟨h1, h2⟩
      · rcases List.mem_append.mp h1 with h1 | h1
        · exact Or.inl h1
        · have : row = r := by simpa using h1
          subst this
          exact Or.inr ⟨hk, by simp⟩
      · have hnot : row.transactionLogId ∉ table.map fun x => x.transactionLogId := by
          intro hin
          exact h1 (by simp only [List.map_append, List.mem_append]; exact Or.inl hin)
        have hne : ¬ r.transactionLogId = row.transactionLogId := by
          intro heq
          apply h1
          simp [heq]
        refine Or.inr ⟨hnot, ?_⟩
        rw [List.find?_cons_of_neg _ (by simpa using hne)]
        exact h2

theorem InsertTokenTransfers_upsert (cfg : Config) (fuel : Nat) (event : ChainEvent)
    (w : World (List Row)) (s : Option (List KCTTransfer))
    (hdec : transformsLogsToTokenTransfers cfg event = .ok s)
    (h : (InsertTokenTransfers cfg upsertStore fuel event w).1 = .returned none) :
    (InsertTokenTransfers cfg upsertStore fuel event w).2.db
      = ((elems s).map rowOf).foldl upsertRow w.db := by
  rw [InsertTokenTransfers_of_decoded cfg upsertStore fuel event w s hdec] at h ⊢
  cases s with
  | none => rw [insertLoop_nil]; rfl
  | some ts => exact insertLoop_upsert cfg fuel ts w h

/-- C12. Idempotent persistence on the store modelled as a map keyed by
`transactionLogId` (upsert: insert when the key is absent, leave the row when present).
When `InsertTokenTransfers` is run twice on the same chain event and both runs return
nil, the store after the second run equals the store after the first. After the first
run every decoded record's id has a row; each row either was in the store before or is
the row of the first decoded record with that id; and if ids were unique in the store
before, they are unique after: exactly one row per distinct id, with the column values
of the first insert. -/
theorem persistence_is_idempotent (cfg : Config) (fuel1 fuel2 : Nat) (event : ChainEvent)
    (w0 : World (List Row))
    (h1 : (InsertTokenTransfers cfg upsertStore fuel1 event w0).1 = .returned none)
    (h2 : (InsertTokenTransfers cfg upsertStore fuel2 event
      (InsertTokenTransfers cfg upsertStore fuel1 event w0).2).1 = .returned none) :
    (InsertTokenTransfers cfg upsertStore fuel2 event
        (InsertTokenTransfers cfg upsertStore fuel1 event w0).2).2.db
      = (InsertTokenTransfers cfg upsertStore fuel1 event w0).2.db ∧
    ∃ s, transformsLogsToTokenTransfers cfg event = .ok s ∧
      (∀ r ∈ elems s, r.TransactionLogId ∈
        (InsertTokenTransfers cfg upsertStore fuel1 event w0).2.db.map
          fun row => row.transactionLogId) ∧
      (∀ row ∈ (InsertTokenTransfers cfg upsertStore fuel1 event w0).2.db,
        row ∈ w0.db ∨
          (row.transactionLogId ∉ w0.db.map (fun r => r.transactionLogId) ∧
            ((elems s).map rowOf).find?
                (fun r => decide (r.transactionLogId = row.transactionLogId)) = some row)) ∧
      ((w0.db.map fun row => row.transactionLogId).Nodup →
        ((InsertTokenTransfers cfg upsertStore fuel2 event
          (InsertTokenTransfers cfg upsertStore fuel1 event w0).2).2.db.map
            fun row => row.transactionLogId).Nodup) := by
  cases hdec : transformsLogsToTokenTransfers cfg event with
  | error p =>
    simp [InsertTokenTransfers, hdec] at h1
  | ok s =>
    have e1 := InsertTokenTransfers_upsert cfg fuel1 event w0 s hdec h1
    have e2 := InsertTokenTransfers_upsert cfg fuel2 event _ s hdec h2
    have hidem : (InsertTokenTransfers cfg upsertStore fuel2 event
        (InsertTokenTransfers cfg upsertStore fuel1 event w0).2).2.db
        = (InsertTokenTransfers cfg upsertStore fuel1 event w0).2.db := by
      rw [e2, e1, upsertRows_idempotent]
    refine ⟨hidem, s, rfl, ?_, ?_, ?_⟩
    · intro r hr
      rw [e1, upsertRows_keys]
      exact Or.inr (List.mem_map.mpr ⟨rowOf r, List.mem_map.mpr ⟨r, hr, rfl⟩, rfl⟩)
    · intro row hrow
      rw [e1] at hrow
      exact upsertRows_rows _ _ row hrow
    · intro hnd
      rw [hidem, e1]
      exact upsertRows_nodup _ _ hnd

/-- Witness for C12: the five-log event written twice, in chunks of two, to an empty
store; the store holds the same five rows after both runs. -/
theorem persistence_is_idempotent_witness :
    (InsertTokenTransfers tinyConfig upsertStore 3 sampleEventFive
        (InsertTokenTransfers tinyConfig upsertStore 3 sampleEventFive (freshWorld [])).2).2.db
      = (InsertTokenTransfers tinyConfig upsertStore 3 sampleEventFive (freshWorld [])).2.db ∧
    (InsertTokenTransfers tinyConfig upsertStore 3 sampleEventFive (freshWorld [])).2.db.length
      = 5 :=
  ⟨(persistence_is_idempotent tinyConfig 3 3 sampleEventFive (freshWorld []) rfl rfl).1, rfl⟩

end Kas
